import Mathlib

/-!
# Verification of the block-splitting module

Shallow embedding of `blocksplitting.py`: the two-coloring splitter
(`split_AB`), the block-list extractor (`split_AB_blocks`), the contiguous
range splitter (`split_list`), the diagonal restriction builder
(`split_diagonal_hamiltonian`), and the greedy thread distributor with
iterative balancer (`distribute_keep_together` / `balance_threads`).

Sparse matrices are modelled as lists of COO entries `(row, col, value)`
with integer values; the distributor's fills, targets and imbalances are
rationals, matching Python's true division.  Fallible operations (Python `assert` failures,
`StopIteration`, `IndexError`, division by zero) return `Option`, with
`none` for any raised error.  The rebalancing loop of
`distribute_keep_together` takes explicit fuel; `none` on fuel exhaustion
is distinguished from normal termination, so a `some` result corresponds
to a terminating Python run.

Two deliberate points of fidelity to the Python source:
* in `split_AB`/`split_AB_blocks` the advance to the next declared block is
  an `if`, not a `while`, so a scan step advances at most one block per
  entry (this matters for empty declared blocks);
* in `distribute_keep_together` the snapshot `thread_bins.copy()` is a
  shallow copy: `balance_threads` mutates the inner bin lists in place, so
  the rollback `thread_bins = thread_bins_prev` does not restore the bins.
  The model therefore returns the post-pass bins when a pass is rejected.
-/

/-- A COO entry of a sparse matrix: `(row, col, value)`. -/
abbrev Entry : Type := ℕ × ℕ × ℤ

/-- The value of the matrix represented by the entry list `l` at
coordinate `(i, j)` (duplicate coordinates are summed, as in
`scipy.sparse.coo_matrix.tocsr`).  Values are modelled as integers: only
their additive structure and decidable equality with zero matter. -/
def matVal (l : List Entry) (i j : ℕ) : ℤ :=
  ((l.filter (fun e => e.1 == i && e.2.1 == j)).map (fun e => e.2.2)).sum

/-- The numpy dtype of a block-size array (only the distinction
`int32` versus anything else matters to the code). -/
inductive NpDtype : Type
  | int32 : NpDtype
  | int64 : NpDtype
  | float64 : NpDtype
deriving DecidableEq

/-- The `block_info` argument: a numpy array of block sizes together with
its dtype.  Sizes are integers (they may be negative: the code never
checks the sign). -/
structure BlockInfo : Type where
  sizes : List ℤ
  dtype : NpDtype
deriving DecidableEq

/-- `true` iff the list of naturals is non-decreasing. -/
def nonDecreasing : List ℕ → Bool
  | [] => true
  | [_] => true
  | a :: b :: rest => decide (a ≤ b) && nonDecreasing (b :: rest)

/-- The assert `np.all(np.sort(m_coo.row) == m_coo.row)`: rows of the
entry list are non-decreasing. -/
def rowsSorted (l : List Entry) : Prop :=
  nonDecreasing (l.map (fun e => e.1)) = true

instance (l : List Entry) : Decidable (rowsSorted l) :=
  inferInstanceAs (Decidable (_ = true))

/-- The assert `(scipy.sparse.triu(m) - m).nnz == 0`: every stored entry
below the diagonal has value zero. -/
def upperTriangular (l : List Entry) : Prop :=
  ∀ e ∈ l, e.1 ≤ e.2.1 ∨ e.2.2 = 0

instance (l : List Entry) : Decidable (upperTriangular l) :=
  inferInstanceAs (Decidable (∀ e ∈ l, e.1 ≤ e.2.1 ∨ e.2.2 = 0))

instance : DecidableEq (Option (List Entry × List Entry)) :=
  Option.instDecidableEq

instance : DecidableEq (List (List Entry) × List (List Entry)) :=
  instDecidableEqProd

instance : DecidableEq (Option (List (List Entry) × List (List Entry))) :=
  Option.instDecidableEq

instance : DecidableEq (Option (List (List ℤ))) :=
  Option.instDecidableEq

/-- Append the entry `e` to side `sel` (0 = `A`, 1 = `B`) of the
accumulator, as `AB[selector][...].append(...)` does. -/
def appendAB (sel : ℕ) (e : Entry) (ab : List Entry × List Entry) :
    List Entry × List Entry :=
  if sel = 0 then (ab.1 ++ [e], ab.2) else (ab.1, ab.2 ++ [e])

/-- The entry scan of `split_AB` (lines 47-56 of `blocksplitting.py`):
`blks` is the not-yet-consumed tail of the (zero-filtered) block-size
iterator, `limit` is `n_row_limit`, `sel` is `selector`.  `none` models
the uncaught `StopIteration` when the iterator is exhausted. -/
def splitScanAB : List Entry → List ℤ → ℤ → ℕ →
    List Entry × List Entry → Option (List Entry × List Entry)
  | [], _, _, _, ab => some ab
  | e :: rest, blks, limit, sel, ab =>
    if (e.1 : ℤ) > limit then
      match blks with
      | [] => none
      | sz :: blks2 =>
          splitScanAB rest blks2 (limit + sz) ((sel + 1) % 2)
            (appendAB ((sel + 1) % 2) e ab)
    else
      splitScanAB rest blks limit sel (appendAB sel e ab)

/-- `split_AB(m, block_info, n)`: split a sparse matrix into two
block-diagonal matrices, entries of alternating blocks going to
alternating outputs.  The matrix is its sorted COO entry list; the result
is the pair of entry lists of `A` and `B`.  `none` models a raised
assertion error or `StopIteration`. -/
def split_AB (entries : List Entry) (block_info : BlockInfo) (n : ℕ) :
    Option (List Entry × List Entry) :=
  if ¬ upperTriangular entries then none
  else if ¬ rowsSorted entries then none
  else if block_info.dtype ≠ NpDtype.int32 then none
  else
    match block_info.sizes.filter (fun s => s != 0) with
    | [] => none
    | sz :: blks => splitScanAB entries blks (sz - 1) 1 ([], [])

/-- Append a finished block to side `sel` of the accumulator of
`split_AB_blocks`. -/
def appendBlockAB (sel : ℕ) (bl : List Entry)
    (ab : List (List Entry) × List (List Entry)) :
    List (List Entry) × List (List Entry) :=
  if sel = 0 then (ab.1 ++ [bl], ab.2) else (ab.1, ab.2 ++ [bl])

/-- The entry scan of `split_AB_blocks` (lines 99-124): `scratch` is the
current block accumulator (`block_data`/`block_row`/`block_col`), flushed
to side `(sel+1) % 2` whenever the block boundary advances and the
scratch is non-empty, and once more after the scan. -/
def splitScanBlocks : List Entry → List ℤ → ℤ → ℕ → List Entry →
    List (List Entry) × List (List Entry) →
    Option (List (List Entry) × List (List Entry))
  | [], _, _, sel, scratch, ab =>
    if scratch.length > 0 then some (appendBlockAB ((sel + 1) % 2) scratch ab)
    else some ab
  | e :: rest, blks, limit, sel, scratch, ab =>
    if (e.1 : ℤ) > limit then
      match blks with
      | [] => none
      | sz :: blks2 =>
          if scratch.length > 0 then
            splitScanBlocks rest blks2 (limit + sz) ((sel + 1) % 2) [e]
              (appendBlockAB ((sel + 1) % 2) scratch ab)
          else
            splitScanBlocks rest blks2 (limit + sz) ((sel + 1) % 2) [e] ab
    else
      splitScanBlocks rest blks limit sel (scratch ++ [e]) ab

/-- `split_AB_blocks(m, block_info, n)`: like `split_AB` but each emitted
block becomes its own matrix (entry list), collected into the two lists
`AB[0]`, `AB[1]`. -/
def split_AB_blocks (entries : List Entry) (block_info : BlockInfo) (n : ℕ) :
    Option (List (List Entry) × List (List Entry)) :=
  if ¬ upperTriangular entries then none
  else if ¬ rowsSorted entries then none
  else if block_info.dtype ≠ NpDtype.int32 then none
  else
    match block_info.sizes.filter (fun s => s != 0) with
    | [] => none
    | sz :: blks => splitScanBlocks entries blks (sz - 1) 0 [] ([], [])

/-- Spec-side description of the declared blocks: for block sizes
`szs = [s1, s2, ...]` and a current inclusive row limit `limit`, block
`k` consists of the entries whose row lies in the half-open range
`(limit + s1 + ... + sk, limit + s1 + ... + s(k+1)]`.  Starting from
`limit = -1`, block `k` covers exactly the rows
`[off_k, off_k + s(k+1))` of the claim. -/
def declaredFrom (entries : List Entry) : List ℤ → ℤ → List (List Entry)
  | [], _ => []
  | sz :: rest, limit =>
      entries.filter (fun e =>
          decide (limit < (e.1 : ℤ)) && decide ((e.1 : ℤ) ≤ limit + sz))
        :: declaredFrom entries rest (limit + sz)

/-- Spec-side emission order: starting from selector `sel`, group `k`
(0-based) is appended to output list `(sel + k + 1) % 2`; with `sel = 0`
this is the claim's parity rule: block `k` goes to list `(k + 1) % 2`. -/
def flushAll : ℕ → List (List Entry) →
    List (List Entry) × List (List Entry) →
    List (List Entry) × List (List Entry)
  | _, [], ab => ab
  | sel, g :: rest, ab =>
      flushAll ((sel + 1) % 2) rest (appendBlockAB ((sel + 1) % 2) g ab)

/-- Split a list into its even-indexed and odd-indexed elements (in
order): `parityTake l = (elements at even positions, odd positions)`. -/
def parityTake {α : Type} : List α → List α × List α
  | [] => ([], [])
  | g :: rest => (g :: (parityTake rest).2, (parityTake rest).1)

/-- The loop of `split_list`: iteration counter `i` runs through
`reversed(range(1, n + 1))`, taking `len(lst) // i` elements each time. -/
def splitListAux {α : Type} : List α → ℕ → List (List α)
  | _, 0 => []
  | lst, i + 1 =>
      lst.take (lst.length / (i + 1)) ::
        splitListAux (lst.drop (lst.length / (i + 1))) i

/-- `split_list(lst, n)`: split `lst` into `n` contiguous chunks. -/
def split_list {α : Type} (lst : List α) (n : ℕ) : List (List α) :=
  splitListAux lst n

/-- `res[-1][indices] = 0`: set the positions `idxs` of the vector `v`
to zero. -/
def setZeros (v : List ℤ) (idxs : List ℕ) : List ℤ :=
  idxs.foldl (fun w p => w.set p 0) v

/-- The inner loop of `split_diagonal_hamiltonian`: zero every chunk of
`v` except chunk `i` (`j` runs through `range(nb)`, skipping `j = i`). -/
def zeroOtherChunks (v : List ℤ) (chunks : List (List ℕ)) (nb i : ℕ) :
    List ℤ :=
  (List.range nb).foldl
    (fun w j => if i = j then w else setZeros w (chunks.getD j [])) v

/-- `split_diagonal_hamiltonian(H0, n_blocks)`: the input operator is an
`n × n` matrix given by its entry list; its diagonal is extracted and the
restriction of the diagonal to each chunk of `split_list(range(n),
n_blocks)` is returned.  `none` models the assert that the operator be
exactly diagonal. -/
def split_diagonal_hamiltonian (n : ℕ) (entries : List Entry)
    (n_blocks : ℕ) : Option (List (List ℤ)) :=
  let diag_data := (List.range n).map (fun i => matVal entries i i)
  if (∀ e ∈ entries, e.1 = e.2.1 ∨ e.2.2 = 0) then
    some ((List.range n_blocks).map (fun i =>
      zeroOtherChunks diag_data (split_list (List.range n) n_blocks)
        n_blocks i))
  else none

/-- A block handed to the distributor: only its identity and its stored
nonzero count (`block.data.nnz`) matter. -/
structure MatBlock : Type where
  bid : ℕ
  nnz : ℕ
deriving DecidableEq

/-- Accumulated cost of a bin: the sum of its blocks' nnz. -/
def binFill (l : List MatBlock) : ℚ :=
  (l.map (fun b => (b.nnz : ℚ))).sum

/-- The first `while` of `balance_threads` (`thread_filled[i] > avg`):
`revBi` is bin `i` reversed (so `pop()` is head removal), `bj` is bin `j`
(`insert(0, ...)` is cons).  `none` models the `IndexError` of popping an
empty list. -/
def balanceDown (avg : ℚ) : List MatBlock → List MatBlock → ℚ → ℚ →
    Option (List MatBlock × List MatBlock × ℚ × ℚ)
  | [], bj, fi, fj => if fi > avg then none else some ([], bj, fi, fj)
  | b :: rest, bj, fi, fj =>
    if fi > avg then
      balanceDown avg rest (b :: bj) (fi - (b.nnz : ℚ)) (fj + (b.nnz : ℚ))
    else some (b :: rest, bj, fi, fj)

/-- The second `while` of `balance_threads` (`thread_filled[i] < avg`):
`pop(0)` from bin `j`, `append` to bin `i`. -/
def balanceUp (avg : ℚ) : List MatBlock → List MatBlock → ℚ → ℚ →
    Option (List MatBlock × List MatBlock × ℚ × ℚ)
  | bi, [], fi, fj => if fi < avg then none else some (bi, [], fi, fj)
  | bi, b :: rest, fi, fj =>
    if fi < avg then
      balanceUp avg (bi ++ [b]) rest (fi + (b.nnz : ℚ)) (fj - (b.nnz : ℚ))
    else some (bi, b :: rest, fi, fj)

/-- `balance_threads(thread_bins, thread_filled, i, j)` restricted to the
adjacent pair it is always called with: each argument is a bin paired
with its fill. -/
def balance_threads (pi pj : List MatBlock × ℚ) :
    Option ((List MatBlock × ℚ) × (List MatBlock × ℚ)) :=
  let avg : ℚ := (pi.2 + pj.2) / 2
  if pi.2 > pj.2 then
    match balanceDown avg pi.1.reverse pj.1 pi.2 pj.2 with
    | none => none
    | some (revBi, bj, fi, fj) => some ((revBi.reverse, fi), (bj, fj))
  else if pi.2 < pj.2 then
    match balanceUp avg pi.1 pj.1 pi.2 pj.2 with
    | none => none
    | some (bi, bj, fi, fj) => some ((bi, fi), (bj, fj))
  else some (pi, pj)

/-- The descending half-pass
`for i_thread in reversed(range(1, n_threads)): balance_threads(..., i_thread - 1, i_thread)`:
pairs are balanced right to left. -/
def passDesc : List (List MatBlock × ℚ) → Option (List (List MatBlock × ℚ))
  | [] => some []
  | [x] => some [x]
  | x :: y :: rest =>
    match passDesc (y :: rest) with
    | none => none
    | some tl =>
      match tl with
      | [] => some [x]
      | y2 :: rest2 =>
        match balance_threads x y2 with
        | none => none
        | some (x2, y3) => some (x2 :: y3 :: rest2)

/-- The ascending half-pass
`for i_thread in range(1, n_threads): balance_threads(..., i_thread - 1, i_thread)`:
pairs are balanced left to right. -/
def passAsc : List (List MatBlock × ℚ) → Option (List (List MatBlock × ℚ))
  | [] => some []
  | [x] => some [x]
  | x :: y :: rest =>
    match balance_threads x y with
    | none => none
    | some (x2, y2) =>
      match passAsc (y2 :: rest) with
      | none => none
      | some tl => some (x2 :: tl)
termination_by l => l.length

/-- `sigma`: mean absolute deviation of the fills from the target,
`np.sum(np.abs(thread_filled - nnz_per_thread)) / n_threads`. -/
def imbalance (fills : List ℚ) (target : ℚ) (nt : ℕ) : ℚ :=
  ((fills.map (fun f => |f - target|)).sum) / (nt : ℚ)

/-- The `while True` rebalancing loop of `distribute_keep_together`.
Because `thread_bins.copy()` is a shallow copy and `balance_threads`
mutates the inner lists in place, a rejected pass still returns the
post-pass bins (only `thread_filled` is effectively rolled back, and it
is not part of the return value).  `none` is fuel exhaustion. -/
def balanceLoop (target : ℚ) (nt : ℕ) :
    ℕ → List (List MatBlock × ℚ) → ℚ → Option (List (List MatBlock))
  | 0, _, _ => none
  | fuel + 1, state, sigma0 =>
    match passDesc state with
    | none => none
    | some s1 =>
      match passAsc s1 with
      | none => none
      | some s2 =>
        if imbalance (s2.map Prod.snd) target nt ≥ sigma0 then
          some (s2.map Prod.fst)
        else
          balanceLoop target nt fuel s2 (imbalance (s2.map Prod.snd) target nt)

/-- Phase 1 of `distribute_keep_together` (lines 176-180): greedy
assignment of blocks, advancing the current thread when its fill plus
half the candidate block's nnz meets the target. -/
def greedyAux (target : ℚ) (nt : ℕ) :
    List MatBlock → List (List MatBlock) → List ℚ → ℕ →
    List (List MatBlock) × List ℚ
  | [], bins, filled, _ => (bins, filled)
  | b :: rest, bins, filled, i =>
    let i2 := if filled.getD i 0 + (b.nnz : ℚ) / 2 ≥ target
      then min (i + 1) (nt - 1) else i
    greedyAux target nt rest (bins.set i2 (bins.getD i2 [] ++ [b]))
      (filled.set i2 (filled.getD i2 0 + (b.nnz : ℚ))) i2

/-- The greedy phase starting from `n_threads` empty bins. -/
def greedyPhase (blocks : List MatBlock) (nt : ℕ) :
    List (List MatBlock) × List ℚ :=
  greedyAux ((blocks.map (fun b => (b.nnz : ℚ))).sum / (nt : ℚ)) nt blocks
    (List.replicate nt []) (List.replicate nt 0) 0

/-- `distribute_keep_together(list_of_blocks, n_threads)`: greedy phase
followed by the rebalancing loop.  `none` models the `ZeroDivisionError`
for `n_threads = 0` or fuel exhaustion of the loop. -/
def distribute_keep_together (blocks : List MatBlock) (n_threads : ℕ)
    (fuel : ℕ) : Option (List (List MatBlock)) :=
  if n_threads = 0 then none
  else
    let target : ℚ := (blocks.map (fun b => (b.nnz : ℚ))).sum / (n_threads : ℚ)
    let gb := greedyPhase blocks n_threads
    balanceLoop target n_threads fuel (gb.1.zip gb.2)
      (imbalance gb.2 target n_threads)

/-- Imbalance of an assignment, computed from the bins themselves. -/
def binsImbalance (bins : List (List MatBlock)) (target : ℚ) (nt : ℕ) : ℚ :=
  imbalance (bins.map binFill) target nt

/-- The nnz-per-thread target of `distribute_keep_together`. -/
def nnzTarget (blocks : List MatBlock) (nt : ℕ) : ℚ :=
  (blocks.map (fun b => (b.nnz : ℚ))).sum / (nt : ℚ)

/-! ## Theorems -/

/-- C1 (code bug): on blocks with nnz `[4, 4, 4, 20]` and `n_threads = 3`
the rebalancing pass is rejected (`sigma >= sigma0`), but because
`thread_bins.copy()` is a shallow copy the rollback does not restore the
bins: the returned assignment has imbalance `80/9`, strictly greater than
the greedy phase's `64/9`, contradicting the claimed monotonicity. -/
theorem C1_rollback_is_ineffective :
    distribute_keep_together [⟨0, 4⟩, ⟨1, 4⟩, ⟨2, 4⟩, ⟨3, 20⟩] 3 1 =
      some [[⟨0, 4⟩, ⟨1, 4⟩], [⟨2, 4⟩, ⟨3, 20⟩], []] ∧
    binsImbalance [[⟨0, 4⟩, ⟨1, 4⟩], [⟨2, 4⟩, ⟨3, 20⟩], []]
        (nnzTarget [⟨0, 4⟩, ⟨1, 4⟩, ⟨2, 4⟩, ⟨3, 20⟩] 3) 3 >
      binsImbalance (greedyPhase [⟨0, 4⟩, ⟨1, 4⟩, ⟨2, 4⟩, ⟨3, 20⟩] 3).1
        (nnzTarget [⟨0, 4⟩, ⟨1, 4⟩, ⟨2, 4⟩, ⟨3, 20⟩] 3) 3 := by
  refine ⟨?_, ?_⟩ <;>
    norm_num [distribute_keep_together, greedyPhase, greedyAux, balanceLoop,
      passDesc, passAsc, balance_threads, balanceDown, balanceUp, imbalance,
      binFill, binsImbalance, nnzTarget, List.replicate, List.set, abs]

/-- C4 (code bug): with declared blocks `[1, 1, 2]` (the first two empty
of nonzeros) and entries `(2,2), (2,3), (3,3)`, the single-`if` block
advance lags behind the row index, so the two entries of row 2 land in
different output matrices: row 2 does not lie entirely in one of `A`/`B`,
and declared block 2 is not classified as one block. -/
theorem C4_empty_block_splits_a_row :
    split_AB ([(2, 2, 1), (2, 3, 1), (3, 3, 1)] : List Entry)
        ⟨[1, 1, 2], NpDtype.int32⟩ 4 =
      some ([(2, 2, 1)], [(2, 3, 1), (3, 3, 1)]) ∧
    matVal [(2, 2, 1)] 2 2 ≠ 0 ∧ matVal [(2, 3, 1), (3, 3, 1)] 2 3 ≠ 0 := by
  decide

/-- C5 (counterexample): `split_list(range(10), 3)` has chunk lengths
`[3, 3, 4]` — the remainder is at the back, not the front as claimed. -/
theorem C5_remainder_at_back :
    (split_list (List.range 10) 3).map List.length = [3, 3, 4] ∧
    ([3, 3, 4] : List ℕ) ≠ [4, 3, 3] := by
  decide

/-- C6 (counterexample): with a single zero-cost block and
`n_threads = 2`, the greedy condition `0 + 0 >= 0` is true, so the thread
index advances and the block lands on thread 1, not thread 0. -/
theorem C6_zero_cost_lands_on_thread_one :
    distribute_keep_together [⟨0, 0⟩] 2 1 = some [[], [⟨0, 0⟩]] ∧
    ([[], [⟨0, 0⟩]] : List (List MatBlock)) ≠ [[⟨0, 0⟩], []] := by
  refine ⟨?_, by decide⟩
  norm_num [distribute_keep_together, greedyPhase, greedyAux, balanceLoop,
    passDesc, passAsc, balance_threads, balanceDown, balanceUp, imbalance,
    binFill, List.replicate, List.set, abs]

/-- C8 (counterexample): a block-size sum of 5 on a dimension-2 matrix,
and a negative declared size, are not checked by any assert: both
`split_AB` and `split_AB_blocks` return normally on such inputs. -/
theorem C8_unchecked_preconditions :
    split_AB ([(0, 0, 1)] : List Entry) ⟨[5], NpDtype.int32⟩ 2 =
      some ([], [(0, 0, 1)]) ∧
    ([5] : List ℤ).sum ≠ (2 : ℤ) ∧
    split_AB ([(0, 0, 1)] : List Entry) ⟨[3, -1], NpDtype.int32⟩ 2 =
      some ([], [(0, 0, 1)]) ∧
    split_AB_blocks ([(0, 0, 1)] : List Entry) ⟨[5], NpDtype.int32⟩ 2 =
      some ([], [[(0, 0, 1)]]) := by
  decide

/-- C8 (amended): the conditions that genuinely raise an assertion-style
error in both functions are unsorted rows and data outside the upper
triangle (besides the dtype check of C10); negative sizes and block-size
sums mismatched with `n` are not checked. -/
theorem C8_sorted_and_triangle_asserts (entries : List Entry)
    (bi : BlockInfo) (n : ℕ)
    (h : ¬ rowsSorted entries ∨ ¬ upperTriangular entries) :
    split_AB entries bi n = none ∧ split_AB_blocks entries bi n = none := by
  constructor <;>
    [unfold split_AB; unfold split_AB_blocks] <;>
    rcases h with h | h <;> split_ifs <;> tauto

/-- C8 witness: an input with rows out of order makes both functions
fail. -/
theorem C8_sorted_and_triangle_asserts_witness :
    (¬ rowsSorted [(1, 1, 1), (0, 0, 1)] ∨
      ¬ upperTriangular [(1, 1, 1), (0, 0, 1)]) ∧
    (split_AB [(1, 1, 1), (0, 0, 1)] ⟨[2], NpDtype.int32⟩ 2 = none ∧
      split_AB_blocks [(1, 1, 1), (0, 0, 1)] ⟨[2], NpDtype.int32⟩ 2 = none) :=
  ⟨by decide,
    C8_sorted_and_triangle_asserts [(1, 1, 1), (0, 0, 1)]
      ⟨[2], NpDtype.int32⟩ 2 (by decide)⟩

/-- C10: both functions assert `block_info.dtype == np.int32`; an array
of any other dtype fails even when its values are valid non-negative
sizes summing to `n`. -/
theorem C10_dtype_assert (entries : List Entry) (sizes : List ℤ) (n : ℕ)
    (dt : NpDtype) (hdt : dt ≠ NpDtype.int32) (hpos : ∀ s ∈ sizes, 0 ≤ s)
    (hsum : sizes.sum = (n : ℤ)) :
    split_AB entries ⟨sizes, dt⟩ n = none ∧
    split_AB_blocks entries ⟨sizes, dt⟩ n = none := by
  constructor <;>
    [unfold split_AB; unfold split_AB_blocks] <;>
    split_ifs <;> tauto

/-- C10 witness: a valid int64 block-size array is rejected. -/
theorem C10_dtype_assert_witness :
    NpDtype.int64 ≠ NpDtype.int32 ∧ (∀ s ∈ ([2] : List ℤ), 0 ≤ s) ∧
    ([2] : List ℤ).sum = ((2 : ℕ) : ℤ) ∧
    (split_AB [(0, 0, 1)] ⟨[2], NpDtype.int64⟩ 2 = none ∧
      split_AB_blocks [(0, 0, 1)] ⟨[2], NpDtype.int64⟩ 2 = none) :=
  ⟨by decide, by decide, by decide,
    C10_dtype_assert [(0, 0, 1)] [2] 2 NpDtype.int64 (by decide) (by decide)
      (by decide)⟩

theorem splitListAux_length {α : Type} :
    ∀ (n : ℕ) (lst : List α), (splitListAux lst n).length = n := by
  intro n
  induction n with
  | zero => intro lst; rfl
  | succ k ih => intro lst; simp [splitListAux, ih]

theorem splitListAux_join {α : Type} :
    ∀ (n : ℕ) (lst : List α), 1 ≤ n → (splitListAux lst n).flatten = lst := by
  intro n
  induction n with
  | zero => intro lst h; omega
  | succ k ih =>
    intro lst _
    match k with
    | 0 => simp [splitListAux]
    | j + 1 =>
      have h2 : (splitListAux (lst.drop (lst.length / (j + 2))) (j + 1)).flatten
          = lst.drop (lst.length / (j + 2)) := ih _ (by omega)
      simp [splitListAux] at h2 ⊢
      rw [h2, List.take_append_drop]

theorem div_le_sub_div_div (L m : ℕ) (hm : 2 ≤ m) :
    L / m ≤ (L - L / m) / (m - 1) := by
  rw [Nat.le_div_iff_mul_le (by omega : 0 < m - 1)]
  have h1 : L / m * m ≤ L := Nat.div_mul_le_self L m
  obtain ⟨m', rfl⟩ : ∃ m', m = m' + 1 := ⟨m - 1, by omega⟩
  simp only [Nat.add_sub_cancel]
  have h2 : L / (m' + 1) * (m' + 1) = L / (m' + 1) * m' + L / (m' + 1) := by
    ring
  omega

theorem succ_div_le_succ_succ_div (k q r : ℕ) (hr : r < k + 2) :
    ((k + 1) * q + r + k) / (k + 1) ≤ ((k + 2) * q + (r + (k + 1))) / (k + 2) := by
  have hL : ((k + 1) * q + r + k) / (k + 1) = q + (r + k) / (k + 1) := by
    rw [show (k + 1) * q + r + k = (k + 1) * q + (r + k) by ring,
      Nat.mul_add_div (by omega)]
  have hR : ((k + 2) * q + (r + (k + 1))) / (k + 2) = q + (r + (k + 1)) / (k + 2) := by
    rw [Nat.mul_add_div (by omega)]
  rw [hL, hR]
  refine Nat.add_le_add_left ?_ q
  rcases Nat.eq_zero_or_pos r with h0 | h0
  · have h1 : (r + k) / (k + 1) = 0 := Nat.div_eq_of_lt (by omega)
    rw [h1]
    exact Nat.zero_le _
  · have hlhs : (r + k) / (k + 1) < 2 := by
      rw [Nat.div_lt_iff_lt_mul (by omega)]; omega
    have hrhs : 1 ≤ (r + (k + 1)) / (k + 2) := by
      rw [Nat.le_div_iff_mul_le (by omega)]; omega
    exact le_trans (Nat.lt_succ_iff.mp hlhs) hrhs

theorem ceil_div_step (L k : ℕ) :
    (L - L / (k + 2) + k) / (k + 1) ≤ (L + (k + 1)) / (k + 2) := by
  have hqr : (k + 2) * (L / (k + 2)) + L % (k + 2) = L := Nat.div_add_mod L (k + 2)
  have hmod : L % (k + 2) < k + 2 := Nat.mod_lt _ (by omega)
  have hmul : (k + 2) * (L / (k + 2)) = (k + 1) * (L / (k + 2)) + L / (k + 2) := by
    ring
  have h1 : L - L / (k + 2) + k = (k + 1) * (L / (k + 2)) + L % (k + 2) + k := by
    omega
  have h2 : L + (k + 1) = (k + 2) * (L / (k + 2)) + (L % (k + 2) + (k + 1)) := by
    omega
  rw [h1, h2]
  exact succ_div_le_succ_succ_div k (L / (k + 2)) (L % (k + 2)) hmod

theorem splitListAux_size_bounds {α : Type} :
    ∀ (n : ℕ) (lst : List α), ∀ c ∈ splitListAux lst n,
      lst.length / n ≤ c.length ∧ c.length ≤ (lst.length + (n - 1)) / n := by
  intro n
  induction n with
  | zero => intro lst c hc; simp [splitListAux] at hc
  | succ k ih =>
    intro lst c hc
    simp only [splitListAux, List.mem_cons] at hc
    rcases hc with rfl | hc
    · constructor
      · simp [Nat.min_eq_left (Nat.div_le_self _ _)]
      · simp only [List.length_take]
        exact le_trans (min_le_left _ _)
          (Nat.div_le_div_right (by omega))
    · match k with
      | 0 => simp [splitListAux] at hc
      | j + 1 =>
        have hlen : (lst.drop (lst.length / (j + 2))).length
            = lst.length - lst.length / (j + 2) := by
          simp
        obtain ⟨hlo, hhi⟩ := ih _ c hc
        rw [hlen] at hlo hhi
        constructor
        · exact le_trans (div_le_sub_div_div lst.length (j + 2) (by omega)) hlo
        · exact le_trans hhi (ceil_div_step lst.length j)

theorem splitListAux_head_length {α : Type} (lst : List α) (k : ℕ) :
    ((splitListAux lst (k + 1)).map List.length).head? =
      some (lst.length / (k + 1)) := by
  simp [splitListAux, Nat.min_eq_left (Nat.div_le_self _ _)]

theorem splitListAux_sizes_monotone {α : Type} :
    ∀ (n : ℕ) (lst : List α),
      List.Chain' (fun a b => a ≤ b) ((splitListAux lst n).map List.length) := by
  intro n
  induction n with
  | zero => intro lst; simp [splitListAux]
  | succ k ih =>
    intro lst
    match k with
    | 0 => simp [splitListAux]
    | j + 1 =>
      rw [splitListAux, List.map_cons]
      refine List.chain'_cons'.2 ⟨?_, ih _⟩
      intro b hb
      rw [splitListAux_head_length] at hb
      simp only [Option.mem_def, Option.some_inj] at hb
      subst hb
      simp only [List.length_take, List.length_drop,
        Nat.min_eq_left (Nat.div_le_self _ _)]
      exact div_le_sub_div_div lst.length (j + 2) (by omega)

/-- C5 (amended): `split_list(seq, n)` returns `n` contiguous chunks
covering `seq` exactly, with sizes within 1 of `len(seq)/n` and
NON-DECREASING front to back (back-loaded remainder: slightly larger
chunks near the back); concretely `split_list(range(10), 3)` has chunk
lengths `[3, 3, 4]`. -/
theorem C5_split_list_chunk_profile {α : Type} (lst : List α) (n : ℕ)
    (h1 : 1 ≤ n) :
    (split_list lst n).length = n ∧
    (split_list lst n).flatten = lst ∧
    (∀ c ∈ split_list lst n,
      lst.length / n ≤ c.length ∧ c.length ≤ lst.length / n + 1) ∧
    List.Chain' (fun a b => a ≤ b) ((split_list lst n).map List.length) ∧
    (split_list (List.range 10) 3).map List.length = [3, 3, 4] := by
  refine ⟨splitListAux_length n lst, splitListAux_join n lst h1, ?_, ?_, ?_⟩
  · intro c hc
    obtain ⟨hlo, hhi⟩ := splitListAux_size_bounds n lst c hc
    refine ⟨hlo, le_trans hhi ?_⟩
    have : (lst.length + (n - 1)) / n ≤ (lst.length + n) / n :=
      Nat.div_le_div_right (by omega)
    rw [Nat.add_div_right _ (by omega)] at this
    exact this
  · exact splitListAux_sizes_monotone n lst
  · decide

/-- C5 witness: the theorem instantiated at `range(10)` with `n = 3`. -/
theorem C5_split_list_chunk_profile_witness :
    (1 ≤ 3) ∧
    ((split_list (List.range 10) 3).length = 3 ∧
      (split_list (List.range 10) 3).flatten = List.range 10 ∧
      (∀ c ∈ split_list (List.range 10) 3,
        (List.range 10).length / 3 ≤ c.length ∧
          c.length ≤ (List.range 10).length / 3 + 1) ∧
      List.Chain' (fun a b => a ≤ b)
        ((split_list (List.range 10) 3).map List.length) ∧
      (split_list (List.range 10) 3).map List.length = [3, 3, 4]) :=
  ⟨by decide, C5_split_list_chunk_profile (List.range 10) 3 (by decide)⟩

theorem getD_set_zero (v : List ℤ) (q p : ℕ) :
    (v.set q 0).getD p 0 = if q = p then 0 else v.getD p 0 := by
  by_cases h : q = p
  · subst h
    rw [if_pos rfl, List.getD_eq_getElem?_getD, List.getElem?_set, if_pos rfl]
    split_ifs <;> rfl
  · rw [if_neg h, List.getD_eq_getElem?_getD, List.getElem?_set, if_neg h,
      List.getD_eq_getElem?_getD]

theorem setZeros_length : ∀ (idxs : List ℕ) (v : List ℤ),
    (setZeros v idxs).length = v.length := by
  intro idxs
  induction idxs with
  | nil => intro v; rfl
  | cons q idxs ih =>
    intro v
    rw [show setZeros v (q :: idxs) = setZeros (v.set q 0) idxs from rfl, ih,
      List.length_set]

theorem setZeros_getD (p : ℕ) : ∀ (idxs : List ℕ) (v : List ℤ),
    (setZeros v idxs).getD p 0 = if p ∈ idxs then 0 else v.getD p 0 := by
  intro idxs
  induction idxs with
  | nil => intro v; simp [setZeros]
  | cons q idxs ih =>
    intro v
    rw [show setZeros v (q :: idxs) = setZeros (v.set q 0) idxs from rfl, ih,
      getD_set_zero]
    by_cases h1 : p ∈ idxs
    · simp [h1]
    · by_cases h2 : q = p
      · subst h2; simp [h1]
      · have hcons : p ∉ q :: idxs := by
          rintro hmem
          rcases List.mem_cons.mp hmem with rfl | hmem
          · exact h2 rfl
          · exact h1 hmem
        rw [if_neg h1, if_neg h2, if_neg hcons]

theorem foldl_zeroChunks_getD (chunks : List (List ℕ)) (i p : ℕ) :
    ∀ (js : List ℕ) (v : List ℤ),
      ((js.foldl
          (fun w j => if i = j then w else setZeros w (chunks.getD j [])) v).getD
        p 0)
        = if ∃ j ∈ js, i ≠ j ∧ p ∈ chunks.getD j [] then 0
          else v.getD p 0 := by
  intro js
  induction js with
  | nil => intro v; simp
  | cons j js ih =>
    intro v
    rw [List.foldl_cons, ih]
    by_cases hex : ∃ j2 ∈ js, i ≠ j2 ∧ p ∈ chunks.getD j2 []
    · obtain ⟨j2, hj2, hne, hp⟩ := hex
      rw [if_pos ⟨j2, hj2, hne, hp⟩,
        if_pos ⟨j2, List.mem_cons_of_mem _ hj2, hne, hp⟩]
    · rw [if_neg hex]
      by_cases hij : i = j
      · have hcond : ¬ ∃ j2 ∈ j :: js, i ≠ j2 ∧ p ∈ chunks.getD j2 [] := by
          rintro ⟨j2, hj2, hne, hp⟩
          rcases List.mem_cons.mp hj2 with rfl | hj2
          · exact hne hij
          · exact hex ⟨j2, hj2, hne, hp⟩
        rw [if_pos hij, if_neg hcond]
      · rw [if_neg hij, setZeros_getD]
        by_cases hp : p ∈ chunks.getD j []
        · rw [if_pos hp, if_pos ⟨j, List.mem_cons_self j js, hij, hp⟩]
        · have hcond : ¬ ∃ j2 ∈ j :: js, i ≠ j2 ∧ p ∈ chunks.getD j2 [] := by
            rintro ⟨j2, hj2, hne, hp2⟩
            rcases List.mem_cons.mp hj2 with rfl | hj2
            · exact hp hp2
            · exact hex ⟨j2, hj2, hne, hp2⟩
          rw [if_neg hp, if_neg hcond]

theorem zeroOtherChunks_getD (v : List ℤ) (chunks : List (List ℕ))
    (nb i p : ℕ) :
    (zeroOtherChunks v chunks nb i).getD p 0
      = if ∃ j, j < nb ∧ i ≠ j ∧ p ∈ chunks.getD j [] then 0
        else v.getD p 0 := by
  rw [zeroOtherChunks, foldl_zeroChunks_getD]
  congr 1
  simp only [List.mem_range, eq_iff_iff]

theorem zeroOtherChunks_length (v : List ℤ) (chunks : List (List ℕ))
    (nb i : ℕ) :
    (zeroOtherChunks v chunks nb i).length = v.length := by
  rw [zeroOtherChunks]
  generalize List.range nb = js
  induction js generalizing v with
  | nil => rfl
  | cons j js ih =>
    rw [List.foldl_cons]
    by_cases hij : i = j
    · rw [if_pos hij]; exact ih v
    · rw [if_neg hij, ih, setZeros_length]

theorem sum_map_range_single (f : ℕ → ℤ) :
    ∀ (m k : ℕ), k < m → (∀ i, i < m → i ≠ k → f i = 0) →
      ((List.range m).map f).sum = f k := by
  intro m
  induction m with
  | zero => intro k hk; omega
  | succ m ih =>
    intro k hk h0
    rw [List.range_succ, List.map_append, List.sum_append]
    simp only [List.map_cons, List.map_nil, List.sum_cons, List.sum_nil,
      add_zero]
    by_cases hkm : k = m
    · subst hkm
      have : ((List.range k).map f).sum = 0 := by
        apply List.sum_eq_zero
        intro x hx
        obtain ⟨i, hi, rfl⟩ := List.mem_map.mp hx
        have hi2 : i < k := List.mem_range.mp hi
        exact h0 i (by omega) (by omega)
      rw [this, zero_add]
    · rw [ih k (by omega) (fun i hi hik => h0 i (by omega) hik),
        h0 m (by omega) (fun hmk => hkm hmk.symm), add_zero]

/-- C9: for any input operator and `n_blocks >= 1`: if the operator
passes the diagonality assert, the returned diagonal restrictions sum
pointwise to the original diagonal, the product of any two distinct
outputs vanishes everywhere, and the index chunks assigned by
`split_list` partition the full index range; an input with a nonzero
off-diagonal entry fails with an assertion-style error (`none`). -/
theorem C9_diagonal_restriction (n : ℕ) (entries : List Entry) (nb : ℕ)
    (hnb : 1 ≤ nb) :
    (∀ res, split_diagonal_hamiltonian n entries nb = some res →
      res.length = nb ∧
      (split_list (List.range n) nb).flatten = List.range n ∧
      (∀ p, p < n →
        (res.map (fun v => v.getD p 0)).sum = matVal entries p p) ∧
      (∀ i j, i < nb → j < nb → i ≠ j →
        ∀ p, (res.getD i []).getD p 0 * (res.getD j []).getD p 0 = 0)) ∧
    ((∃ e ∈ entries, e.1 ≠ e.2.1 ∧ e.2.2 ≠ 0) →
      split_diagonal_hamiltonian n entries nb = none) := by
  have hclen : (split_list (List.range n) nb).length = nb :=
    splitListAux_length nb _
  have hflat : (split_list (List.range n) nb).flatten = List.range n :=
    splitListAux_join nb _ hnb
  have hnodup : (split_list (List.range n) nb).flatten.Nodup := by
    rw [hflat]; exact List.nodup_range n
  have hpw : List.Pairwise List.Disjoint (split_list (List.range n) nb) :=
    (List.nodup_flatten.mp hnodup).2
  have hdisj : ∀ a b, a < nb → b < nb → a ≠ b →
      List.Disjoint ((split_list (List.range n) nb).getD a [])
        ((split_list (List.range n) nb).getD b []) := by
    intro a b ha hb hne
    have ha2 : a < (split_list (List.range n) nb).length := by omega
    have hb2 : b < (split_list (List.range n) nb).length := by omega
    rw [List.getD_eq_getElem _ _ ha2, List.getD_eq_getElem _ _ hb2]
    rcases Nat.lt_or_ge a b with hab | hab
    · exact (List.pairwise_iff_getElem.mp hpw) a b ha2 hb2 hab
    · have hba : b < a := by omega
      exact List.Disjoint.symm ((List.pairwise_iff_getElem.mp hpw) b a hb2 ha2 hba)
  have hdiag_len : ((List.range n).map (fun i => matVal entries i i)).length
      = n := by simp
  have hdiag_getD : ∀ p, p < n →
      ((List.range n).map (fun i => matVal entries i i)).getD p 0
        = matVal entries p p := by
    intro p hp
    rw [List.getD_eq_getElem _ _ (by simpa using hp)]
    simp
  have hex : ∀ p, p < n → ∃ k, k < nb ∧
      p ∈ (split_list (List.range n) nb).getD k [] ∧
      ∀ j, j < nb → j ≠ k →
        p ∉ (split_list (List.range n) nb).getD j [] := by
    intro p hp
    have hpmem : p ∈ (split_list (List.range n) nb).flatten := by
      rw [hflat]; exact List.mem_range.mpr hp
    obtain ⟨c, hc, hpc⟩ := List.mem_flatten.mp hpmem
    obtain ⟨k, hk, hck⟩ := List.mem_iff_getElem.mp hc
    have hk2 : k < nb := by omega
    have hgk : p ∈ (split_list (List.range n) nb).getD k [] := by
      rw [List.getD_eq_getElem _ _ hk, hck]; exact hpc
    refine ⟨k, hk2, hgk, ?_⟩
    intro j hj hjk hmem
    exact hdisj j k hj hk2 hjk hmem hgk
  have hval : ∀ i p, i < nb → p < n →
      (zeroOtherChunks ((List.range n).map (fun i => matVal entries i i))
          (split_list (List.range n) nb) nb i).getD p 0 =
        if p ∈ (split_list (List.range n) nb).getD i [] then
          matVal entries p p
        else 0 := by
    intro i p hi hp
    obtain ⟨k, hk, hpk, huniq⟩ := hex p hp
    rw [zeroOtherChunks_getD]
    by_cases hik : i = k
    · subst hik
      rw [if_neg ?_, if_pos hpk, hdiag_getD p hp]
      rintro ⟨j, hj, hne, hpj⟩
      exact huniq j hj (fun hh => hne hh.symm) hpj
    · rw [if_pos ⟨k, hk, hik, hpk⟩, if_neg (huniq i hi hik)]
  constructor
  · intro res hres
    simp only [split_diagonal_hamiltonian] at hres
    split_ifs at hres with hguard
    · rw [Option.some_inj] at hres
      subst hres
      refine ⟨by simp, hflat, ?_, ?_⟩
      · intro p hp
        obtain ⟨k, hk, hpk, huniq⟩ := hex p hp
        rw [List.map_map,
          sum_map_range_single _ nb k hk ?_]
        · simp only [Function.comp_apply]
          rw [hval k p hk hp, if_pos hpk]
        · intro i hi hik
          simp only [Function.comp_apply]
          rw [hval i p hi hp, if_neg (huniq i hi hik)]
      · intro i j hi hj hij p
        have hres_at : ∀ a, a < nb →
            ((List.range nb).map (fun i =>
              zeroOtherChunks
                ((List.range n).map (fun i => matVal entries i i))
                (split_list (List.range n) nb) nb i)).getD a []
            = zeroOtherChunks
                ((List.range n).map (fun i => matVal entries i i))
                (split_list (List.range n) nb) nb a := by
          intro a ha
          rw [List.getD_eq_getElem _ _ (by simpa using ha)]
          simp
        rw [hres_at i hi, hres_at j hj]
        by_cases hp : p < n
        · obtain ⟨k, hk, hpk, huniq⟩ := hex p hp
          by_cases hik : i = k
          · subst hik
            rw [hval j p hj hp, if_neg (huniq j hj (fun hh => hij hh.symm)),
              mul_zero]
          · rw [hval i p hi hp, if_neg (huniq i hi hik), zero_mul]
        · have hz : (zeroOtherChunks
              ((List.range n).map (fun i => matVal entries i i))
              (split_list (List.range n) nb) nb i).getD p 0 = 0 := by
            apply List.getD_eq_default
            rw [zeroOtherChunks_length, hdiag_len]
            omega
          rw [hz, zero_mul]
  · rintro ⟨e, he, hne, hv⟩
    simp only [split_diagonal_hamiltonian]
    rw [if_neg]
    intro hall
    rcases hall e he with h | h
    · exact hne h
    · exact hv h

/-- C9 witness: a 2×2 diagonal operator split into two chunks. -/
theorem C9_diagonal_restriction_witness :
    (1 ≤ 2) ∧
    ((∀ res, split_diagonal_hamiltonian 2 [(0, 0, 1), (1, 1, 2)] 2 = some res →
      res.length = 2 ∧
      (split_list (List.range 2) 2).flatten = List.range 2 ∧
      (∀ p, p < 2 →
        (res.map (fun v => v.getD p 0)).sum
          = matVal [(0, 0, 1), (1, 1, 2)] p p) ∧
      (∀ i j, i < 2 → j < 2 → i ≠ j →
        ∀ p, (res.getD i []).getD p 0 * (res.getD j []).getD p 0 = 0)) ∧
    ((∃ e ∈ ([(0, 0, 1), (1, 1, 2)] : List Entry), e.1 ≠ e.2.1 ∧ e.2.2 ≠ 0) →
      split_diagonal_hamiltonian 2 [(0, 0, 1), (1, 1, 2)] 2 = none)) :=
  ⟨by decide, C9_diagonal_restriction 2 [(0, 0, 1), (1, 1, 2)] 2 (by decide)⟩

theorem splitScanAB_nil (blks : List ℤ) (limit : ℤ) (sel : ℕ)
    (ab : List Entry × List Entry) :
    splitScanAB [] blks limit sel ab = some ab := rfl

theorem splitScanAB_cons (e : Entry) (rest : List Entry) (blks : List ℤ)
    (limit : ℤ) (sel : ℕ) (ab : List Entry × List Entry) :
    splitScanAB (e :: rest) blks limit sel ab =
      if (e.1 : ℤ) > limit then
        match blks with
        | [] => none
        | sz :: blks2 =>
            splitScanAB rest blks2 (limit + sz) ((sel + 1) % 2)
              (appendAB ((sel + 1) % 2) e ab)
      else splitScanAB rest blks limit sel (appendAB sel e ab) := rfl

theorem matVal_append (l1 l2 : List Entry) (i j : ℕ) :
    matVal (l1 ++ l2) i j = matVal l1 i j + matVal l2 i j := by
  simp [matVal, List.filter_append]

theorem matVal_cons (e : Entry) (l : List Entry) (i j : ℕ) :
    matVal (e :: l) i j = matVal [e] i j + matVal l i j := by
  rw [show e :: l = [e] ++ l from rfl, matVal_append]

theorem matVal_appendAB (sel : ℕ) (e : Entry) (ab : List Entry × List Entry)
    (i j : ℕ) :
    matVal (appendAB sel e ab).1 i j + matVal (appendAB sel e ab).2 i j
      = matVal ab.1 i j + matVal ab.2 i j + matVal [e] i j := by
  rw [appendAB]
  split_ifs <;> simp [matVal_append] <;> ring

theorem splitScanAB_matVal :
    ∀ (entries : List Entry) (blks : List ℤ) (limit : ℤ) (sel : ℕ)
      (ab : List Entry × List Entry) (A B : List Entry),
      splitScanAB entries blks limit sel ab = some (A, B) →
      ∀ i j, matVal A i j + matVal B i j
        = matVal ab.1 i j + matVal ab.2 i j + matVal entries i j := by
  intro entries
  induction entries with
  | nil =>
    intro blks limit sel ab A B hscan i j
    rw [splitScanAB_nil, Option.some_inj] at hscan
    subst hscan
    simp [matVal]
  | cons e rest ih =>
    intro blks limit sel ab A B hscan i j
    rw [splitScanAB_cons] at hscan
    by_cases hcond : (e.1 : ℤ) > limit
    · rw [if_pos hcond] at hscan
      cases blks with
      | nil => exact absurd hscan (by simp)
      | cons sz blks2 =>
        have h2 := ih blks2 (limit + sz) ((sel + 1) % 2)
          (appendAB ((sel + 1) % 2) e ab) A B hscan i j
        rw [matVal_appendAB] at h2
        rw [h2, matVal_cons e rest i j]
        ring
    · rw [if_neg hcond] at hscan
      have h2 := ih blks limit sel (appendAB sel e ab) A B hscan i j
      rw [matVal_appendAB] at h2
      rw [h2, matVal_cons e rest i j]
      ring

theorem appendAB_perm (sel : ℕ) (e : Entry) (ab : List Entry × List Entry) :
    ((appendAB sel e ab).1 ++ (appendAB sel e ab).2).Perm
      (ab.1 ++ ab.2 ++ [e]) := by
  rw [appendAB]
  split_ifs
  · rw [List.perm_iff_count]
    intro a
    simp only [List.count_append]
    ring
  · rw [List.perm_iff_count]
    intro a
    simp only [List.count_append]
    ring

theorem splitScanAB_perm :
    ∀ (entries : List Entry) (blks : List ℤ) (limit : ℤ) (sel : ℕ)
      (ab : List Entry × List Entry) (A B : List Entry),
      splitScanAB entries blks limit sel ab = some (A, B) →
      (A ++ B).Perm (ab.1 ++ ab.2 ++ entries) := by
  intro entries
  induction entries with
  | nil =>
    intro blks limit sel ab A B hscan
    rw [splitScanAB_nil, Option.some_inj] at hscan
    subst hscan
    simp
  | cons e rest ih =>
    intro blks limit sel ab A B hscan
    have hstep : ∀ sel2,
        ((appendAB sel2 e ab).1 ++ (appendAB sel2 e ab).2 ++ rest).Perm
          (ab.1 ++ ab.2 ++ (e :: rest)) := by
      intro sel2
      have h1 := (appendAB_perm sel2 e ab).append_right rest
      refine h1.trans ?_
      rw [List.append_assoc (ab.1 ++ ab.2) [e] rest, List.singleton_append]
    rw [splitScanAB_cons] at hscan
    by_cases hcond : (e.1 : ℤ) > limit
    · rw [if_pos hcond] at hscan
      cases blks with
      | nil => exact absurd hscan (by simp)
      | cons sz blks2 =>
        exact (ih blks2 (limit + sz) ((sel + 1) % 2)
          (appendAB ((sel + 1) % 2) e ab) A B hscan).trans (hstep _)
    · rw [if_neg hcond] at hscan
      exact (ih blks limit sel (appendAB sel e ab) A B hscan).trans (hstep _)

theorem matVal_ne_zero_mem (l : List Entry) (i j : ℕ)
    (h : matVal l i j ≠ 0) : (i, j) ∈ l.map (fun e => (e.1, e.2.1)) := by
  by_contra hmem
  apply h
  rw [matVal, List.filter_eq_nil_iff.mpr, List.map_nil, List.sum_nil]
  intro e he hbe
  apply hmem
  simp only [Bool.and_eq_true, beq_iff_eq] at hbe
  exact List.mem_map.mpr ⟨e, he, by rw [hbe.1, hbe.2]⟩

/-- C3: under the preconditions (upper-triangular, sorted rows,
non-negative sizes summing to `n`, distinct coordinates — the entry list
represents a matrix), the pair `(A, B)` returned by `split_AB` satisfies
`A + B = input` pointwise, `A` and `B` share no nonzero coordinate, and
the entries of `A ++ B` are exactly the input entries (no entry
duplicated or dropped). -/
theorem C3_partition_property (entries : List Entry) (bi : BlockInfo)
    (n : ℕ) (htri : upperTriangular entries) (hsort : rowsSorted entries)
    (hpos : ∀ s ∈ bi.sizes, 0 ≤ s) (hsum : bi.sizes.sum = (n : ℤ))
    (hdistinct : (entries.map (fun e => (e.1, e.2.1))).Nodup) :
    ∀ A B, split_AB entries bi n = some (A, B) →
      (∀ i j, matVal A i j + matVal B i j = matVal entries i j) ∧
      (∀ i j, matVal A i j = 0 ∨ matVal B i j = 0) ∧
      (A ++ B).Perm entries := by
  intro A B hAB
  rw [split_AB] at hAB
  split_ifs at hAB
  cases hfil : bi.sizes.filter (fun s => s != 0) with
  | nil => rw [hfil] at hAB; exact absurd hAB (by simp)
  | cons sz blks =>
    rw [hfil] at hAB
    have hmv := splitScanAB_matVal entries blks (sz - 1) 1 ([], []) A B hAB
    have hperm0 := splitScanAB_perm entries blks (sz - 1) 1 ([], []) A B hAB
    have hperm : (A ++ B).Perm entries := by simpa using hperm0
    refine ⟨?_, ?_, hperm⟩
    · intro i j
      have h1 := hmv i j
      simpa [matVal] using h1
    · intro i j
      by_contra hcontra
      push_neg at hcontra
      obtain ⟨hA, hB⟩ := hcontra
      have hmemA := matVal_ne_zero_mem A i j hA
      have hmemB := matVal_ne_zero_mem B i j hB
      have hnd : ((A ++ B).map (fun e => (e.1, e.2.1))).Nodup :=
        ((hperm.map (fun e => (e.1, e.2.1))).nodup_iff).mpr hdistinct
      rw [List.map_append] at hnd
      exact List.disjoint_of_nodup_append hnd hmemA hmemB

/-- C3 witness: a 2×2 matrix with two diagonal blocks of size 1. -/
theorem C3_partition_property_witness :
    (upperTriangular [(0, 0, 1), (1, 1, 2)] ∧
      rowsSorted [(0, 0, 1), (1, 1, 2)] ∧
      (∀ s ∈ ([1, 1] : List ℤ), 0 ≤ s) ∧
      ([1, 1] : List ℤ).sum = ((2 : ℕ) : ℤ) ∧
      (([(0, 0, 1), (1, 1, 2)] : List Entry).map
        (fun e => (e.1, e.2.1))).Nodup) ∧
    (∀ A B, split_AB [(0, 0, 1), (1, 1, 2)] ⟨[1, 1], NpDtype.int32⟩ 2
        = some (A, B) →
      (∀ i j, matVal A i j + matVal B i j
        = matVal [(0, 0, 1), (1, 1, 2)] i j) ∧
      (∀ i j, matVal A i j = 0 ∨ matVal B i j = 0) ∧
      (A ++ B).Perm [(0, 0, 1), (1, 1, 2)]) :=
  ⟨⟨by decide, by decide, by decide, by decide, by decide⟩,
    C3_partition_property [(0, 0, 1), (1, 1, 2)] ⟨[1, 1], NpDtype.int32⟩ 2
      (by decide) (by decide) (by decide) (by decide) (by decide)⟩

theorem getD_set_ne {α : Type} (l : List α) (m k : ℕ) (a d : α)
    (h : m ≠ k) : (l.set m a).getD k d = l.getD k d := by
  rw [List.getD_eq_getElem?_getD, List.getElem?_set, if_neg h,
    ← List.getD_eq_getElem?_getD]

theorem flatten_set_append (b : MatBlock) :
    ∀ (bins : List (List MatBlock)) (j : ℕ),
      j < bins.length →
      (∀ k, j < k → k < bins.length → bins.getD k [] = []) →
      (bins.set j (bins.getD j [] ++ [b])).flatten
        = bins.flatten ++ [b] := by
  intro bins
  induction bins with
  | nil => intro j hj _; exact absurd hj (by simp)
  | cons x rest ih =>
    intro j hj hemp
    cases j with
    | zero =>
      have hrest : rest.flatten = [] := by
        apply List.flatten_eq_nil_iff.mpr
        intro y hy
        obtain ⟨k, hk, rfl⟩ := List.mem_iff_getElem.mp hy
        have := hemp (k + 1) (by omega) (by simpa using by omega)
        rwa [List.getD_cons_succ, List.getD_eq_getElem _ _ hk] at this
      simp only [List.set_cons_zero, List.getD_cons_zero, List.flatten_cons,
        hrest, List.append_nil]
    | succ j2 =>
      simp only [List.set_cons_succ, List.getD_cons_succ, List.flatten_cons]
      rw [ih j2 (by simpa using hj)
        (fun k hk1 hk2 => by
          have := hemp (k + 1) (by omega) (by simpa using by omega)
          rwa [List.getD_cons_succ] at this),
        List.append_assoc]

theorem greedyAux_bins_length (target : ℚ) (nt : ℕ) :
    ∀ (blocks : List MatBlock) (bins : List (List MatBlock))
      (filled : List ℚ) (i : ℕ),
      ((greedyAux target nt blocks bins filled i).1).length = bins.length := by
  intro blocks
  induction blocks with
  | nil => intro bins filled i; rfl
  | cons b rest ih =>
    intro bins filled i
    rw [greedyAux, ih, List.length_set]

theorem greedyAux_filled_length (target : ℚ) (nt : ℕ) :
    ∀ (blocks : List MatBlock) (bins : List (List MatBlock))
      (filled : List ℚ) (i : ℕ),
      ((greedyAux target nt blocks bins filled i).2).length
        = filled.length := by
  intro blocks
  induction blocks with
  | nil => intro bins filled i; rfl
  | cons b rest ih =>
    intro bins filled i
    rw [greedyAux, ih, List.length_set]

theorem greedyAux_flatten (target : ℚ) (nt : ℕ) :
    ∀ (blocks : List MatBlock) (bins : List (List MatBlock))
      (filled : List ℚ) (i : ℕ),
      bins.length = nt → i < nt →
      (∀ k, i < k → k < nt → bins.getD k [] = []) →
      ((greedyAux target nt blocks bins filled i).1).flatten
        = bins.flatten ++ blocks := by
  intro blocks
  induction blocks with
  | nil => intro bins filled i _ _ _; simp [greedyAux]
  | cons b rest ih =>
    intro bins filled i hlen hi hemp
    rw [greedyAux]
    set i2 := if filled.getD i 0 + (b.nnz : ℚ) / 2 ≥ target
      then min (i + 1) (nt - 1) else i with hi2
    have hle : i ≤ i2 := by
      rw [hi2]; split_ifs
      · exact le_min (by omega) (by omega)
      · exact le_refl i
    have hlt : i2 < nt := by
      rw [hi2]; split_ifs
      · have : min (i + 1) (nt - 1) ≤ nt - 1 := min_le_right _ _
        omega
      · exact hi
    rw [ih _ _ i2 (by rw [List.length_set]; exact hlen) hlt
      (fun k hk1 hk2 => by
        rw [getD_set_ne _ _ _ _ _ (by omega)]
        exact hemp k (by omega) hk2)]
    rw [flatten_set_append b bins i2 (by omega)
      (fun k hk1 hk2 => hemp k (by omega) (by omega))]
    rw [List.append_assoc, List.singleton_append]

theorem balanceDown_nil (avg : ℚ) (bj : List MatBlock) (fi fj : ℚ) :
    balanceDown avg [] bj fi fj =
      if fi > avg then none else some ([], bj, fi, fj) := rfl

theorem balanceDown_cons (avg : ℚ) (b : MatBlock)
    (rest bj : List MatBlock) (fi fj : ℚ) :
    balanceDown avg (b :: rest) bj fi fj =
      if fi > avg then
        balanceDown avg rest (b :: bj) (fi - (b.nnz : ℚ)) (fj + (b.nnz : ℚ))
      else some (b :: rest, bj, fi, fj) := rfl

theorem balanceDown_append (avg : ℚ) :
    ∀ (revBi bj : List MatBlock) (fi fj : ℚ)
      (r : List MatBlock × List MatBlock × ℚ × ℚ),
      balanceDown avg revBi bj fi fj = some r →
      r.1.reverse ++ r.2.1 = revBi.reverse ++ bj := by
  intro revBi
  induction revBi with
  | nil =>
    intro bj fi fj r hr
    rw [balanceDown_nil] at hr
    split_ifs at hr
    rw [Option.some_inj] at hr
    subst hr
    rfl
  | cons b rest ih =>
    intro bj fi fj r hr
    rw [balanceDown_cons] at hr
    split_ifs at hr with hcond
    · have := ih (b :: bj) (fi - (b.nnz : ℚ)) (fj + (b.nnz : ℚ)) r hr
      rw [this, List.reverse_cons, List.append_assoc, List.singleton_append]
    · rw [Option.some_inj] at hr
      subst hr
      rfl

theorem balanceUp_nil (avg : ℚ) (bi : List MatBlock) (fi fj : ℚ) :
    balanceUp avg bi [] fi fj =
      if fi < avg then none else some (bi, [], fi, fj) := rfl

theorem balanceUp_cons (avg : ℚ) (b : MatBlock) (bi rest : List MatBlock)
    (fi fj : ℚ) :
    balanceUp avg bi (b :: rest) fi fj =
      if fi < avg then
        balanceUp avg (bi ++ [b]) rest (fi + (b.nnz : ℚ)) (fj - (b.nnz : ℚ))
      else some (bi, b :: rest, fi, fj) := rfl

theorem balanceUp_append (avg : ℚ) :
    ∀ (bj bi : List MatBlock) (fi fj : ℚ)
      (r : List MatBlock × List MatBlock × ℚ × ℚ),
      balanceUp avg bi bj fi fj = some r →
      r.1 ++ r.2.1 = bi ++ bj := by
  intro bj
  induction bj with
  | nil =>
    intro bi fi fj r hr
    rw [balanceUp_nil] at hr
    split_ifs at hr
    rw [Option.some_inj] at hr
    subst hr
    simp
  | cons b rest ih =>
    intro bi fi fj r hr
    rw [balanceUp_cons] at hr
    split_ifs at hr with hcond
    · have := ih (bi ++ [b]) (fi + (b.nnz : ℚ)) (fj - (b.nnz : ℚ)) r hr
      rw [this, List.append_assoc, List.singleton_append]
    · rw [Option.some_inj] at hr
      subst hr
      rfl

theorem balance_threads_append (pi pj : List MatBlock × ℚ)
    (r : (List MatBlock × ℚ) × (List MatBlock × ℚ))
    (hr : balance_threads pi pj = some r) :
    r.1.1 ++ r.2.1 = pi.1 ++ pj.1 := by
  rw [balance_threads] at hr
  split_ifs at hr with h1 h2
  · cases hbd : balanceDown ((pi.2 + pj.2) / 2) pi.1.reverse pj.1 pi.2 pj.2 with
    | none => rw [hbd] at hr; exact absurd hr (by simp)
    | some val =>
      obtain ⟨revBi2, bj2, fi2, fj2⟩ := val
      rw [hbd, Option.some_inj] at hr
      subst hr
      have := balanceDown_append _ _ _ _ _ _ hbd
      simp only at this ⊢
      rw [← List.reverse_reverse pi.1, ← this]
  · cases hbu : balanceUp ((pi.2 + pj.2) / 2) pi.1 pj.1 pi.2 pj.2 with
    | none => rw [hbu] at hr; exact absurd hr (by simp)
    | some val =>
      obtain ⟨bi2, bj2, fi2, fj2⟩ := val
      rw [hbu, Option.some_inj] at hr
      subst hr
      exact balanceUp_append _ _ _ _ _ _ hbu
  · rw [Option.some_inj] at hr
    subst hr
    rfl

theorem passDesc_cons2 (x y : List MatBlock × ℚ)
    (rest : List (List MatBlock × ℚ)) :
    passDesc (x :: y :: rest) =
      match passDesc (y :: rest) with
      | none => none
      | some tl =>
        match tl with
        | [] => some [x]
        | y2 :: rest2 =>
          match balance_threads x y2 with
          | none => none
          | some (x2, y3) => some (x2 :: y3 :: rest2) := rfl

theorem passDesc_flatten :
    ∀ (state state2 : List (List MatBlock × ℚ)),
      passDesc state = some state2 →
      (state2.map Prod.fst).flatten = (state.map Prod.fst).flatten := by
  intro state
  induction state with
  | nil =>
    intro state2 h
    rw [show passDesc [] = some [] from rfl, Option.some_inj] at h
    subst h
    rfl
  | cons x rest ih =>
    cases rest with
    | nil =>
      intro state2 h
      rw [show passDesc [x] = some [x] from rfl, Option.some_inj] at h
      subst h
      rfl
    | cons y rest2 =>
      intro state2 h
      rw [passDesc_cons2] at h
      cases hd : passDesc (y :: rest2) with
      | none => rw [hd] at h; exact absurd h (by simp)
      | some tl =>
        rw [hd] at h
        cases tl with
        | nil =>
          replace h : some [x] = some state2 := h
          rw [Option.some_inj] at h
          subst h
          have h2 := ih [] hd
          simp only [List.map_cons, List.map_nil, List.flatten_cons,
            List.flatten_nil] at h2 ⊢
          rw [← h2, List.append_nil]
        | cons y2 rest3 =>
          replace h : (match balance_threads x y2 with
              | none => none
              | some (x2, y3) => some (x2 :: y3 :: rest3)) = some state2 := h
          cases hbt : balance_threads x y2 with
          | none => rw [hbt] at h; exact absurd h (by simp)
          | some r =>
            obtain ⟨x2, y3⟩ := r
            rw [hbt] at h
            replace h : some (x2 :: y3 :: rest3) = some state2 := h
            rw [Option.some_inj] at h
            subst h
            have hb := balance_threads_append x y2 (x2, y3) hbt
            have h2 := ih (y2 :: rest3) hd
            simp only [List.map_cons, List.flatten_cons] at h2 ⊢
            simp only at hb
            rw [← List.append_assoc, hb, List.append_assoc, h2]

theorem passAsc_flatten :
    ∀ (m : ℕ) (state state2 : List (List MatBlock × ℚ)),
      state.length ≤ m → passAsc state = some state2 →
      (state2.map Prod.fst).flatten = (state.map Prod.fst).flatten := by
  intro m
  induction m with
  | zero =>
    intro state state2 hlen h
    have hnil : state = [] := List.length_eq_zero.mp (by omega)
    subst hnil
    simp only [passAsc, Option.some_inj] at h
    subst h
    rfl
  | succ m ihm =>
    intro state state2 hlen h
    cases state with
    | nil =>
      simp only [passAsc, Option.some_inj] at h
      subst h
      rfl
    | cons x rest =>
      cases rest with
      | nil =>
        simp only [passAsc, Option.some_inj] at h
        subst h
        rfl
      | cons y rest2 =>
        simp only [passAsc] at h
        cases hbt : balance_threads x y with
        | none => rw [hbt] at h; exact absurd h (by simp)
        | some r =>
          obtain ⟨x2, y2⟩ := r
          rw [hbt] at h
          replace h : (match passAsc (y2 :: rest2) with
              | none => none
              | some tl => some (x2 :: tl)) = some state2 := h
          cases hp : passAsc (y2 :: rest2) with
          | none => rw [hp] at h; exact absurd h (by simp)
          | some tl =>
            rw [hp] at h
            replace h : some (x2 :: tl) = some state2 := h
            rw [Option.some_inj] at h
            subst h
            have hlen2 : (y2 :: rest2).length ≤ m := by
              simp only [List.length_cons] at hlen ⊢
              omega
            have h2 := ihm (y2 :: rest2) tl hlen2 hp
            have hb := balance_threads_append x y (x2, y2) hbt
            simp only [List.map_cons, List.flatten_cons] at h2 ⊢
            simp only at hb
            rw [h2, ← List.append_assoc, hb, List.append_assoc]

theorem balanceLoop_succ (target : ℚ) (nt fuel : ℕ)
    (state : List (List MatBlock × ℚ)) (sigma0 : ℚ) :
    balanceLoop target nt (fuel + 1) state sigma0 =
      match passDesc state with
      | none => none
      | some s1 =>
        match passAsc s1 with
        | none => none
        | some s2 =>
          if imbalance (s2.map Prod.snd) target nt ≥ sigma0 then
            some (s2.map Prod.fst)
          else
            balanceLoop target nt fuel s2
              (imbalance (s2.map Prod.snd) target nt) := rfl

theorem balanceLoop_flatten (target : ℚ) (nt : ℕ) :
    ∀ (fuel : ℕ) (state : List (List MatBlock × ℚ)) (sigma0 : ℚ)
      (bins : List (List MatBlock)),
      balanceLoop target nt fuel state sigma0 = some bins →
      bins.flatten = (state.map Prod.fst).flatten := by
  intro fuel
  induction fuel with
  | zero =>
    intro state sigma0 bins h
    replace h : (none : Option (List (List MatBlock))) = some bins := h
    exact absurd h (by simp)
  | succ fuel ih =>
    intro state sigma0 bins h
    rw [balanceLoop_succ] at h
    cases hd : passDesc state with
    | none => rw [hd] at h; exact absurd h (by simp)
    | some s1 =>
      rw [hd] at h
      replace h : (match passAsc s1 with
          | none => none
          | some s2 =>
            if imbalance (s2.map Prod.snd) target nt ≥ sigma0 then
              some (s2.map Prod.fst)
            else
              balanceLoop target nt fuel s2
                (imbalance (s2.map Prod.snd) target nt)) = some bins := h
      cases ha : passAsc s1 with
      | none => rw [ha] at h; exact absurd h (by simp)
      | some s2 =>
        rw [ha] at h
        replace h : (if imbalance (s2.map Prod.snd) target nt ≥ sigma0 then
            some (s2.map Prod.fst)
          else
            balanceLoop target nt fuel s2
              (imbalance (s2.map Prod.snd) target nt)) = some bins := h
        split_ifs at h
        · rw [Option.some_inj] at h
          subst h
          rw [passAsc_flatten s1.length s1 s2 (le_refl _) ha,
            passDesc_flatten state s1 hd]
        · rw [ih s2 _ bins h, passAsc_flatten s1.length s1 s2 (le_refl _) ha,
            passDesc_flatten state s1 hd]

/-- C2: for every block list and every thread count between 1 and the
number of blocks, whenever `distribute_keep_together` returns (it is not
interrupted by an error and its loop terminates), concatenating the
returned bins in thread order yields exactly the original block list,
and every block occurs in the bins exactly as often as in the input. -/
theorem C2_order_preservation (blocks : List MatBlock) (nt fuel : ℕ)
    (h1 : 1 ≤ nt) (h2 : nt ≤ blocks.length) :
    ∀ bins, distribute_keep_together blocks nt fuel = some bins →
      bins.flatten = blocks ∧
      ∀ b : MatBlock, (bins.map (fun bin => bin.count b)).sum
        = blocks.count b := by
  intro bins hbins
  simp only [distribute_keep_together] at hbins
  rw [if_neg (by omega)] at hbins
  have hloop := balanceLoop_flatten _ _ fuel _ _ bins hbins
  have hlen1 : (greedyPhase blocks nt).1.length = nt := by
    rw [greedyPhase, greedyAux_bins_length, List.length_replicate]
  have hlen2 : (greedyPhase blocks nt).2.length = nt := by
    rw [greedyPhase, greedyAux_filled_length, List.length_replicate]
  rw [List.map_fst_zip _ _ (by omega)] at hloop
  have hgre : ((greedyPhase blocks nt).1).flatten = blocks := by
    rw [greedyPhase, greedyAux_flatten _ _ _ _ _ _ (by simp) (by omega)
      (fun k hk1 hk2 => by
        rw [List.getD_eq_getElem _ _ (by simpa using hk2)]
        simp)]
    rw [List.flatten_eq_nil_iff.mpr (fun l hl => List.eq_of_mem_replicate hl),
      List.nil_append]
  have hflat : bins.flatten = blocks := by rw [hloop, hgre]
  refine ⟨hflat, fun b => ?_⟩
  rw [← hflat, List.count_flatten]

/-- C2 witness: three blocks on two threads. -/
theorem C2_order_preservation_witness :
    (1 ≤ 2 ∧ 2 ≤ ([⟨0, 1⟩, ⟨1, 2⟩, ⟨2, 3⟩] : List MatBlock).length) ∧
    (∀ bins,
      distribute_keep_together [⟨0, 1⟩, ⟨1, 2⟩, ⟨2, 3⟩] 2 3 = some bins →
      bins.flatten = [⟨0, 1⟩, ⟨1, 2⟩, ⟨2, 3⟩] ∧
      ∀ b : MatBlock, (bins.map (fun bin => bin.count b)).sum
        = ([⟨0, 1⟩, ⟨1, 2⟩, ⟨2, 3⟩] : List MatBlock).count b) :=
  ⟨⟨by decide, by decide⟩,
    C2_order_preservation [⟨0, 1⟩, ⟨1, 2⟩, ⟨2, 3⟩] 2 3 (by decide)
      (by decide)⟩

theorem getD_set_general {α : Type} (l : List α) (m p : ℕ) (a d : α) :
    (l.set m a).getD p d = if m = p ∧ m < l.length then a
      else l.getD p d := by
  by_cases h1 : m = p
  · subst h1
    rw [List.getD_eq_getElem?_getD, List.getElem?_set, if_pos rfl]
    by_cases h2 : m < l.length
    · rw [if_pos h2, if_pos ⟨rfl, h2⟩]
      rfl
    · rw [if_neg h2, if_neg (fun hc => h2 hc.2),
        List.getD_eq_default _ _ (by omega)]
      rfl
  · rw [List.getD_eq_getElem?_getD, List.getElem?_set, if_neg h1,
      ← List.getD_eq_getElem?_getD, if_neg (fun hc => h1 hc.1)]

theorem greedyAux_one_thread (target : ℚ) :
    ∀ (blocks bin : List MatBlock) (filled : List ℚ),
      (greedyAux target 1 blocks [bin] filled 0).1 = [bin ++ blocks] := by
  intro blocks
  induction blocks with
  | nil => intro bin filled; simp [greedyAux]
  | cons b rest ih =>
    intro bin filled
    rw [greedyAux]
    have hi2 : (if filled.getD 0 0 + (b.nnz : ℚ) / 2 ≥ target
        then min (0 + 1) (1 - 1) else 0) = 0 := by
      split_ifs <;> simp
    rw [hi2]
    have hbins : ([bin] : List (List MatBlock)).set 0
        (([bin] : List (List MatBlock)).getD 0 [] ++ [b]) = [bin ++ [b]] := by
      simp
    rw [hbins, ih, List.append_assoc, List.singleton_append]

theorem greedyAux_zero_filled (nt : ℕ) :
    ∀ (blocks : List MatBlock) (bins : List (List MatBlock))
      (filled : List ℚ) (i : ℕ),
      (∀ b ∈ blocks, b.nnz = 0) → (∀ p, filled.getD p 0 = 0) →
      ∀ p, ((greedyAux 0 nt blocks bins filled i).2).getD p 0 = 0 := by
  intro blocks
  induction blocks with
  | nil => intro bins filled i _ hf p; exact hf p
  | cons b rest ih =>
    intro bins filled i hz hf p
    rw [greedyAux]
    have hb0 : b.nnz = 0 := hz b (List.mem_cons_self b rest)
    apply ih _ _ _ (fun b2 hb2 => hz b2 (List.mem_cons_of_mem b hb2))
    intro q
    rw [getD_set_general]
    split_ifs <;> simp only [hf, hb0, Nat.cast_zero, add_zero, zero_add]

theorem greedyAux_zero_head (nt : ℕ) (hnt : 2 ≤ nt) :
    ∀ (blocks : List MatBlock) (bins : List (List MatBlock))
      (filled : List ℚ) (i : ℕ),
      (∀ b ∈ blocks, b.nnz = 0) → (∀ p, filled.getD p 0 = 0) →
      ((greedyAux 0 nt blocks bins filled i).1).getD 0 []
        = bins.getD 0 [] := by
  intro blocks
  induction blocks with
  | nil => intro bins filled i _ _; rfl
  | cons b rest ih =>
    intro bins filled i hz hf
    rw [greedyAux]
    have hb0 : b.nnz = 0 := hz b (List.mem_cons_self b rest)
    have hcond : filled.getD i 0 + (b.nnz : ℚ) / 2 ≥ 0 := by
      rw [hf i, hb0]; simp
    rw [if_pos hcond]
    have hmin : 1 ≤ min (i + 1) (nt - 1) := le_min (by omega) (by omega)
    rw [ih _ _ _ (fun b2 hb2 => hz b2 (List.mem_cons_of_mem b hb2))
      (fun q => by
        rw [getD_set_general]
        split_ifs <;> simp only [hf, hb0, Nat.cast_zero, add_zero, zero_add])]
    rw [getD_set_general, if_neg (fun hc => by omega)]

theorem balance_threads_eq_fills (x y : List MatBlock × ℚ) (h : x.2 = y.2) :
    balance_threads x y = some (x, y) := by
  rw [balance_threads, if_neg (by rw [h]; exact lt_irrefl _),
    if_neg (by rw [h]; exact lt_irrefl _)]

theorem passDesc_zero :
    ∀ (state : List (List MatBlock × ℚ)), (∀ p ∈ state, p.2 = 0) →
      passDesc state = some state := by
  intro state
  induction state with
  | nil => intro _; rfl
  | cons x rest ih =>
    cases rest with
    | nil => intro _; rfl
    | cons y rest2 =>
      intro hz
      rw [passDesc_cons2,
        ih (fun p hp => hz p (List.mem_cons_of_mem x hp))]
      show (match (y :: rest2 : List (List MatBlock × ℚ)) with
        | [] => some [x]
        | y2 :: rest3 =>
          match balance_threads x y2 with
          | none => none
          | some (x2, y3) => some (x2 :: y3 :: rest3)) = some (x :: y :: rest2)
      show (match balance_threads x y with
        | none => none
        | some (x2, y3) => some (x2 :: y3 :: rest2)) = some (x :: y :: rest2)
      rw [balance_threads_eq_fills x y (by
        rw [hz x (List.mem_cons_self x _), hz y
          (List.mem_cons_of_mem x (List.mem_cons_self y rest2))])]

theorem passAsc_zero :
    ∀ (state : List (List MatBlock × ℚ)), (∀ p ∈ state, p.2 = 0) →
      passAsc state = some state := by
  intro state
  induction state with
  | nil => intro _; simp [passAsc]
  | cons x rest ih =>
    cases rest with
    | nil => intro _; simp [passAsc]
    | cons y rest2 =>
      intro hz
      simp only [passAsc]
      rw [balance_threads_eq_fills x y (by
        rw [hz x (List.mem_cons_self x _), hz y
          (List.mem_cons_of_mem x (List.mem_cons_self y rest2))])]
      show (match passAsc (y :: rest2) with
        | none => none
        | some tl => some (x :: tl)) = some (x :: y :: rest2)
      rw [ih (fun p hp => hz p (List.mem_cons_of_mem x hp))]

theorem imbalance_zero (fills : List ℚ) (nt : ℕ)
    (h : ∀ x ∈ fills, x = 0) : imbalance fills 0 nt = 0 := by
  rw [imbalance, List.sum_eq_zero, zero_div]
  intro x hx
  obtain ⟨f, hf, rfl⟩ := List.mem_map.mp hx
  rw [h f hf]
  simp

theorem balanceLoop_noop (target : ℚ) (nt f : ℕ)
    (state : List (List MatBlock × ℚ)) (sigma0 : ℚ)
    (hdesc : passDesc state = some state)
    (hasc : passAsc state = some state)
    (hsig : imbalance (state.map Prod.snd) target nt ≥ sigma0) :
    balanceLoop target nt (f + 1) state sigma0
      = some (state.map Prod.fst) := by
  rw [balanceLoop_succ, hdesc]
  show (match passAsc state with
    | none => none
    | some s2 =>
      if imbalance (s2.map Prod.snd) target nt ≥ sigma0 then
        some (s2.map Prod.fst)
      else
        balanceLoop target nt f s2 (imbalance (s2.map Prod.snd) target nt))
    = some (state.map Prod.fst)
  rw [hasc]
  show (if imbalance (state.map Prod.snd) target nt ≥ sigma0 then
      some (state.map Prod.fst)
    else
      balanceLoop target nt f state
        (imbalance (state.map Prod.snd) target nt))
    = some (state.map Prod.fst)
  rw [if_pos hsig]

/-- C6 (amended): for a block list of total nnz cost zero, any
`n_threads >= 1` and any loop fuel `>= 1`: `distribute_keep_together`
terminates after a single no-op rebalancing pass and returns the greedy
assignment unchanged (no division by zero); the greedy phase advances the
thread index on every block, so all blocks land on thread 0 exactly when
`n_threads = 1`, while for `n_threads >= 2` thread 0 receives no
blocks. -/
theorem C6_zero_cost_distribution (blocks : List MatBlock) (nt fuel : ℕ)
    (hzero : ∀ b ∈ blocks, b.nnz = 0) (hnt : 1 ≤ nt) (hfuel : 1 ≤ fuel) :
    distribute_keep_together blocks nt fuel
      = some ((greedyPhase blocks nt).1) ∧
    (nt = 1 → (greedyPhase blocks nt).1 = [blocks]) ∧
    (2 ≤ nt → ((greedyPhase blocks nt).1).getD 0 [] = []) := by
  have hrep : ∀ p, (List.replicate nt (0 : ℚ)).getD p 0 = 0 := by
    intro p
    by_cases hp : p < nt
    · rw [List.getD_eq_getElem _ _ (by simpa using hp)]
      simp
    · rw [List.getD_eq_default _ _ (by simpa using by omega)]
  have htarget : (blocks.map (fun b => (b.nnz : ℚ))).sum / (nt : ℚ) = 0 := by
    rw [List.sum_eq_zero, zero_div]
    intro x hx
    obtain ⟨b, hb, rfl⟩ := List.mem_map.mp hx
    rw [hzero b hb]
    simp
  have hfill0 : ∀ p, ((greedyPhase blocks nt).2).getD p 0 = 0 := by
    rw [greedyPhase, htarget]
    exact greedyAux_zero_filled nt blocks _ _ 0 hzero hrep
  have hfills_mem : ∀ x ∈ (greedyPhase blocks nt).2, x = 0 := by
    intro x hx
    obtain ⟨p, hp, rfl⟩ := List.mem_iff_getElem.mp hx
    have h := hfill0 p
    rwa [List.getD_eq_getElem _ _ hp] at h
  have hlen1 : (greedyPhase blocks nt).1.length = nt := by
    rw [greedyPhase, greedyAux_bins_length, List.length_replicate]
  have hlen2 : (greedyPhase blocks nt).2.length = nt := by
    rw [greedyPhase, greedyAux_filled_length, List.length_replicate]
  have hstate : ∀ p ∈ (greedyPhase blocks nt).1.zip (greedyPhase blocks nt).2,
      p.2 = 0 := by
    rintro ⟨a, c⟩ hp
    exact hfills_mem c (List.of_mem_zip hp).2
  refine ⟨?_, ?_, ?_⟩
  · simp only [distribute_keep_together]
    rw [if_neg (by omega), htarget]
    obtain ⟨f, rfl⟩ : ∃ f, fuel = f + 1 := ⟨fuel - 1, by omega⟩
    rw [balanceLoop_noop 0 nt f _ _ (passDesc_zero _ hstate)
      (passAsc_zero _ hstate) ?_, List.map_fst_zip _ _ (by omega)]
    rw [List.map_snd_zip _ _ (by omega)]
  · intro h1
    subst h1
    rw [greedyPhase, show List.replicate 1 ([] : List MatBlock) = [[]]
      from rfl, greedyAux_one_thread, List.nil_append]
  · intro h2
    rw [greedyPhase, htarget, greedyAux_zero_head nt h2 blocks _ _ 0 hzero
      hrep]
    rw [List.getD_eq_getElem _ _ (by simp; omega)]
    simp

/-- C6 witness: two zero-cost blocks on two threads. -/
theorem C6_zero_cost_distribution_witness :
    ((∀ b ∈ ([⟨0, 0⟩, ⟨1, 0⟩] : List MatBlock), b.nnz = 0) ∧
      1 ≤ 2 ∧ 1 ≤ 1) ∧
    (distribute_keep_together [⟨0, 0⟩, ⟨1, 0⟩] 2 1
      = some ((greedyPhase [⟨0, 0⟩, ⟨1, 0⟩] 2).1) ∧
    ((2 : ℕ) = 1 → (greedyPhase [⟨0, 0⟩, ⟨1, 0⟩] 2).1 = [[⟨0, 0⟩, ⟨1, 0⟩]]) ∧
    (2 ≤ 2 → ((greedyPhase [⟨0, 0⟩, ⟨1, 0⟩] 2).1).getD 0 [] = [])) :=
  ⟨⟨by decide, by decide, by decide⟩,
    C6_zero_cost_distribution [⟨0, 0⟩, ⟨1, 0⟩] 2 1 (by decide) (by decide)
      (by decide)⟩

theorem splitScanBlocks_nil (blks : List ℤ) (limit : ℤ) (sel : ℕ)
    (scratch : List Entry) (ab : List (List Entry) × List (List Entry)) :
    splitScanBlocks [] blks limit sel scratch ab =
      if scratch.length > 0 then
        some (appendBlockAB ((sel + 1) % 2) scratch ab)
      else some ab := rfl

theorem splitScanBlocks_cons (e : Entry) (rest : List Entry)
    (blks : List ℤ) (limit : ℤ) (sel : ℕ) (scratch : List Entry)
    (ab : List (List Entry) × List (List Entry)) :
    splitScanBlocks (e :: rest) blks limit sel scratch ab =
      if (e.1 : ℤ) > limit then
        match blks with
        | [] => none
        | sz :: blks2 =>
            if scratch.length > 0 then
              splitScanBlocks rest blks2 (limit + sz) ((sel + 1) % 2) [e]
                (appendBlockAB ((sel + 1) % 2) scratch ab)
            else
              splitScanBlocks rest blks2 (limit + sz) ((sel + 1) % 2) [e] ab
      else
        splitScanBlocks rest blks limit sel (scratch ++ [e]) ab := rfl

theorem nonDecreasing_iff_chain :
    ∀ (xs : List ℕ), nonDecreasing xs = true ↔
      List.Chain' (fun a b => a ≤ b) xs := by
  intro xs
  match xs with
  | [] => simp [nonDecreasing]
  | [a] => simp [nonDecreasing]
  | a :: b :: rest =>
    rw [show nonDecreasing (a :: b :: rest)
        = (decide (a ≤ b) && nonDecreasing (b :: rest)) from rfl]
    rw [Bool.and_eq_true, decide_eq_true_iff,
      nonDecreasing_iff_chain (b :: rest), List.chain'_cons]

theorem rowsSorted_pairwise (l : List Entry) (h : rowsSorted l) :
    (l.map (fun e => e.1)).Pairwise (fun a b => a ≤ b) := by
  rw [rowsSorted, nonDecreasing_iff_chain] at h
  exact List.chain'_iff_pairwise.mp h

theorem sortedSplitAt (c : ℤ) :
    ∀ (l : List Entry), (l.map (fun e => e.1)).Pairwise (fun a b => a ≤ b) →
      ∃ g e2, l = g ++ e2 ∧
        g = l.filter (fun e => decide ((e.1 : ℤ) ≤ c)) ∧
        (∀ e ∈ g, (e.1 : ℤ) ≤ c) ∧ (∀ e ∈ e2, c < (e.1 : ℤ)) ∧
        (e2.map (fun e => e.1)).Pairwise (fun a b => a ≤ b) := by
  intro l
  induction l with
  | nil => intro _; exact ⟨[], [], rfl, rfl, by simp, by simp, by simp⟩
  | cons e rest ih =>
    intro hpw
    rw [List.map_cons, List.pairwise_cons] at hpw
    obtain ⟨hhead, htail⟩ := hpw
    by_cases hc : (e.1 : ℤ) ≤ c
    · obtain ⟨g, e2, heq, hgf, hg, he2, hpw2⟩ := ih htail
      refine ⟨e :: g, e2, by rw [heq]; rfl, ?_, ?_, he2, hpw2⟩
      · rw [List.filter_cons, if_pos (by simpa using hc), hgf]
      · intro x hx
        rcases List.mem_cons.mp hx with rfl | hx
        · exact hc
        · exact hg x hx
    · refine ⟨[], e :: rest, rfl, ?_, by simp, ?_, ?_⟩
      · rw [List.filter_cons, if_neg (by simpa using hc)]
        symm
        rw [List.filter_eq_nil_iff]
        intro a ha hpa
        have h1 : e.1 ≤ a.1 := hhead a.1 (List.mem_map.mpr ⟨a, ha, rfl⟩)
        simp only [decide_eq_true_iff] at hpa
        omega
      · intro x hx
        rcases List.mem_cons.mp hx with rfl | hx
        · omega
        · have h1 : e.1 ≤ x.1 := hhead x.1 (List.mem_map.mpr ⟨x, hx, rfl⟩)
          omega
      · rw [List.map_cons, List.pairwise_cons]
        exact ⟨hhead, htail⟩

theorem declaredFrom_drop (c : ℤ) (g e2 : List Entry)
    (hg : ∀ e ∈ g, (e.1 : ℤ) ≤ c) :
    ∀ (rest : List ℤ) (lo : ℤ), c ≤ lo → (∀ sz ∈ rest, 0 < sz) →
      declaredFrom (g ++ e2) rest lo = declaredFrom e2 rest lo := by
  intro rest
  induction rest with
  | nil => intro lo _ _; rfl
  | cons sz rest2 ih =>
    intro lo hlo hpos
    rw [declaredFrom, declaredFrom, List.filter_append,
      List.filter_eq_nil_iff.mpr (fun a ha hpa => by
        have := hg a ha
        simp only [Bool.and_eq_true, decide_eq_true_iff] at hpa
        omega),
      List.nil_append,
      ih (lo + sz) (by have := hpos sz (List.mem_cons_self sz rest2); omega)
        (fun s hs => hpos s (List.mem_cons_of_mem sz hs))]

theorem scanBlocks_within :
    ∀ (grp entries : List Entry) (blks : List ℤ) (limit : ℤ) (sel : ℕ)
      (scratch : List Entry) (ab : List (List Entry) × List (List Entry)),
      (∀ e ∈ grp, (e.1 : ℤ) ≤ limit) →
      splitScanBlocks (grp ++ entries) blks limit sel scratch ab
        = splitScanBlocks entries blks limit sel (scratch ++ grp) ab := by
  intro grp
  induction grp with
  | nil => intro entries blks limit sel scratch ab _; rw [List.append_nil]; rfl
  | cons e g ih =>
    intro entries blks limit sel scratch ab hgrp
    rw [List.cons_append, splitScanBlocks_cons,
      if_neg (by
        have := hgrp e (List.mem_cons_self e g)
        omega),
      ih entries blks limit sel (scratch ++ [e]) ab
        (fun x hx => hgrp x (List.mem_cons_of_mem e hx)),
      List.append_assoc, List.singleton_append]

theorem flushAll_parity :
    ∀ (gs : List (List Entry)) (a b : List (List Entry)),
      flushAll 0 gs (a, b) = (a ++ (parityTake gs).2, b ++ (parityTake gs).1) ∧
      flushAll 1 gs (a, b) = (a ++ (parityTake gs).1, b ++ (parityTake gs).2) := by
  intro gs
  induction gs with
  | nil => intro a b; simp [flushAll, parityTake]
  | cons g rest ih =>
    intro a b
    constructor
    · rw [show flushAll 0 (g :: rest) (a, b)
          = flushAll 1 rest (a, b ++ [g]) from rfl,
        (ih a (b ++ [g])).2]
      rw [show parityTake (g :: rest)
          = (g :: (parityTake rest).2, (parityTake rest).1) from rfl]
      rw [List.append_assoc, List.singleton_append]
    · rw [show flushAll 1 (g :: rest) (a, b)
          = flushAll 0 rest (a ++ [g], b) from rfl,
        (ih (a ++ [g]) b).1]
      rw [show parityTake (g :: rest)
          = (g :: (parityTake rest).2, (parityTake rest).1) from rfl]
      rw [List.append_assoc, List.singleton_append]

theorem sum_filter_nonzero :
    ∀ (l : List ℤ), (l.filter (fun s => s != 0)).sum = l.sum := by
  intro l
  induction l with
  | nil => rfl
  | cons s rest ih =>
    rw [List.filter_cons]
    by_cases hs : s = 0
    · rw [if_neg (by simp [hs]), ih, List.sum_cons, hs, zero_add]
    · rw [if_pos (by simp [hs]), List.sum_cons, ih, List.sum_cons]

theorem splitScanBlocks_cons_cons (e : Entry) (rest : List Entry) (sz : ℤ)
    (blks2 : List ℤ) (limit : ℤ) (sel : ℕ) (scratch : List Entry)
    (ab : List (List Entry) × List (List Entry)) :
    splitScanBlocks (e :: rest) (sz :: blks2) limit sel scratch ab =
      if (e.1 : ℤ) > limit then
        if scratch.length > 0 then
          splitScanBlocks rest blks2 (limit + sz) ((sel + 1) % 2) [e]
            (appendBlockAB ((sel + 1) % 2) scratch ab)
        else
          splitScanBlocks rest blks2 (limit + sz) ((sel + 1) % 2) [e] ab
      else
        splitScanBlocks rest (sz :: blks2) limit sel (scratch ++ [e]) ab :=
  rfl

theorem scanBlocks_main :
    ∀ (szs : List ℤ) (entries : List Entry) (limit : ℤ) (sel : ℕ)
      (scratch : List Entry) (ab : List (List Entry) × List (List Entry)),
      (entries.map (fun e => e.1)).Pairwise (fun a b => a ≤ b) →
      (∀ e ∈ entries, limit < (e.1 : ℤ)) →
      (∀ e ∈ entries, (e.1 : ℤ) ≤ limit + szs.sum) →
      (∀ g ∈ declaredFrom entries szs limit, g ≠ []) →
      (∀ sz ∈ szs, 0 < sz) →
      scratch ≠ [] →
      splitScanBlocks entries szs limit sel scratch ab
        = some (flushAll sel (scratch :: declaredFrom entries szs limit) ab) := by
  intro szs
  induction szs with
  | nil =>
    intro entries limit sel scratch ab hpw hgt hle hne hpos hscr
    cases entries with
    | nil =>
      rw [splitScanBlocks_nil, if_pos (by
        cases scratch with
        | nil => exact absurd rfl hscr
        | cons a l => simp)]
      rfl
    | cons e rest =>
      exfalso
      have h1 := hgt e (List.mem_cons_self e rest)
      have h2 := hle e (List.mem_cons_self e rest)
      rw [List.sum_nil] at h2
      omega
  | cons sz rest ih =>
    intro entries limit sel scratch ab hpw hgt hle hne hpos hscr
    obtain ⟨g, e2, heq, hgf, hgle, he2gt, hpw2⟩ :=
      sortedSplitAt (limit + sz) entries hpw
    subst heq
    have hhead : (g ++ e2).filter (fun e =>
        decide (limit < (e.1 : ℤ)) && decide ((e.1 : ℤ) ≤ limit + sz)) = g := by
      have h1 : (g ++ e2).filter (fun e =>
          decide (limit < (e.1 : ℤ)) && decide ((e.1 : ℤ) ≤ limit + sz))
          = (g ++ e2).filter (fun e => decide ((e.1 : ℤ) ≤ limit + sz)) :=
        List.filter_congr (fun e he => by
          rw [decide_eq_true (hgt e he), Bool.true_and])
      rw [h1, ← hgf]
    have hgne : g ≠ [] := by
      have hh := hne ((g ++ e2).filter (fun e =>
        decide (limit < (e.1 : ℤ)) && decide ((e.1 : ℤ) ≤ limit + sz)))
        (by rw [declaredFrom]; exact List.mem_cons_self _ _)
      rwa [hhead] at hh
    have hdrop : declaredFrom (g ++ e2) rest (limit + sz)
        = declaredFrom e2 rest (limit + sz) :=
      declaredFrom_drop (limit + sz) g e2 hgle rest (limit + sz) (le_refl _)
        (fun s hs => hpos s (List.mem_cons_of_mem sz hs))
    obtain ⟨e0, gtail, rfl⟩ : ∃ e0 gtail, g = e0 :: gtail := by
      cases g with
      | nil => exact absurd rfl hgne
      | cons a l => exact ⟨a, l, rfl⟩
    rw [List.cons_append, splitScanBlocks_cons_cons,
      if_pos (hgt e0 (List.mem_cons_self e0 (gtail ++ e2))),
      if_pos (by
        cases scratch with
        | nil => exact absurd rfl hscr
        | cons a l => simp),
      scanBlocks_within gtail e2 rest (limit + sz) ((sel + 1) % 2) [e0] _
        (fun e he' => hgle e (List.mem_cons_of_mem e0 he')),
      List.singleton_append,
      ih e2 (limit + sz) ((sel + 1) % 2) (e0 :: gtail) _ hpw2 he2gt
        (fun e he' => by
          have := hle e (List.mem_append_right (e0 :: gtail) he')
          rw [List.sum_cons] at this
          omega)
        (fun g' hg' => by
          apply hne g'
          rw [declaredFrom]
          apply List.mem_cons_of_mem
          rw [hdrop]
          exact hg')
        (fun s hs => hpos s (List.mem_cons_of_mem sz hs)) (by simp)]
    simp only [← List.cons_append]
    rw [show declaredFrom ((e0 :: gtail) ++ e2) (sz :: rest) limit
        = (((e0 :: gtail) ++ e2).filter (fun e =>
            decide (limit < (e.1 : ℤ)) && decide ((e.1 : ℤ) ≤ limit + sz)))
          :: declaredFrom ((e0 :: gtail) ++ e2) rest (limit + sz) from rfl,
      hhead, hdrop]
    rfl

/-- C7 (counterexample): with declared blocks `[1, 1, 2]` and entries
only in block 2 (rows 2 and 3), the three entries of declared block 2
are split across BOTH returned lists — the claim that every declared
block `k` is emitted wholly into the list of parity `(k+1) % 2` fails
when a declared block contains no nonzero entries. -/
theorem C7_empty_block_breaks_alternation :
    split_AB_blocks ([(2, 2, 1), (2, 3, 1), (3, 3, 1)] : List Entry)
        ⟨[1, 1, 2], NpDtype.int32⟩ 4
      = some ([[(2, 2, 1)]], [[(2, 3, 1), (3, 3, 1)]]) ∧
    (∃ bl ∈ ([[(2, 2, 1)]] : List (List Entry)), ∃ e ∈ bl, 2 ≤ e.1) ∧
    (∃ bl ∈ ([[(2, 3, 1), (3, 3, 1)]] : List (List Entry)),
      ∃ e ∈ bl, 2 ≤ e.1) := by
  decide

/-- C7 (amended): for every valid input in which every declared
(nonzero-size) block contains at least one stored entry, the block list
extractor emits exactly the declared blocks, block `k` (0-based, row
order) going wholly into output list `(k+1) % 2`: the first returned
list holds the odd-indexed declared blocks and the second the
even-indexed ones, each list ordered by increasing row offset, and no
emitted block spans more than one declared block-size entry. -/
theorem C7_alternation (entries : List Entry) (bi : BlockInfo) (n : ℕ)
    (htri : upperTriangular entries) (hsort : rowsSorted entries)
    (hdtype : bi.dtype = NpDtype.int32)
    (hpos : ∀ s ∈ bi.sizes, 0 ≤ s) (hsum : bi.sizes.sum = (n : ℤ))
    (hn : 1 ≤ n) (hrow : ∀ e ∈ entries, e.1 < n)
    (hne : ∀ g ∈ declaredFrom entries
        (bi.sizes.filter (fun s => s != 0)) (-1), g ≠ []) :
    split_AB_blocks entries bi n = some
      ((parityTake (declaredFrom entries
          (bi.sizes.filter (fun s => s != 0)) (-1))).2,
        (parityTake (declaredFrom entries
          (bi.sizes.filter (fun s => s != 0)) (-1))).1) := by
  have hszpos : ∀ s ∈ bi.sizes.filter (fun s => s != 0), 0 < s := by
    intro s hs
    rw [List.mem_filter] at hs
    have h1 := hpos s hs.1
    have h2 : s ≠ 0 := by simpa using hs.2
    omega
  have hszsum : (bi.sizes.filter (fun s => s != 0)).sum = (n : ℤ) := by
    rw [sum_filter_nonzero, hsum]
  have hpw := rowsSorted_pairwise entries hsort
  cases hszs : bi.sizes.filter (fun s => s != 0) with
  | nil =>
    exfalso
    rw [hszs, List.sum_nil] at hszsum
    omega
  | cons sz1 rest =>
    rw [hszs] at hszpos hne
    obtain ⟨g, e2, heq, hgf, hgle, he2gt, hpw2⟩ :=
      sortedSplitAt (sz1 - 1) entries hpw
    subst heq
    have hm1 : (-1 : ℤ) + sz1 = sz1 - 1 := by ring
    have hhead : (g ++ e2).filter (fun e =>
        decide ((-1 : ℤ) < (e.1 : ℤ)) && decide ((e.1 : ℤ) ≤ -1 + sz1))
        = g := by
      have h1 : (g ++ e2).filter (fun e =>
          decide ((-1 : ℤ) < (e.1 : ℤ)) && decide ((e.1 : ℤ) ≤ -1 + sz1))
          = (g ++ e2).filter (fun e => decide ((e.1 : ℤ) ≤ sz1 - 1)) :=
        List.filter_congr (fun e he => by
          rw [decide_eq_true (by omega : (-1 : ℤ) < (e.1 : ℤ)),
            Bool.true_and, hm1])
      rw [h1, ← hgf]
    have hgne : g ≠ [] := by
      have hh := hne ((g ++ e2).filter (fun e =>
          decide ((-1 : ℤ) < (e.1 : ℤ)) && decide ((e.1 : ℤ) ≤ -1 + sz1)))
        (by rw [declaredFrom]; exact List.mem_cons_self _ _)
      rwa [hhead] at hh
    have hdrop : declaredFrom (g ++ e2) rest (sz1 - 1)
        = declaredFrom e2 rest (sz1 - 1) :=
      declaredFrom_drop (sz1 - 1) g e2 hgle rest (sz1 - 1) (le_refl _)
        (fun s hs => hszpos s (List.mem_cons_of_mem sz1 hs))
    have hszsum2 : sz1 + rest.sum = (n : ℤ) := by
      rw [hszs, List.sum_cons] at hszsum
      exact hszsum
    have hG : declaredFrom (g ++ e2) (sz1 :: rest) (-1)
        = g :: declaredFrom e2 rest (sz1 - 1) := by
      rw [show declaredFrom (g ++ e2) (sz1 :: rest) (-1)
          = ((g ++ e2).filter (fun e =>
              decide ((-1 : ℤ) < (e.1 : ℤ)) &&
                decide ((e.1 : ℤ) ≤ -1 + sz1)))
            :: declaredFrom (g ++ e2) rest (-1 + sz1) from rfl,
        hhead, hm1, hdrop]
    rw [split_AB_blocks, if_neg (not_not_intro htri),
      if_neg (not_not_intro hsort), if_neg (by rw [hdtype]; simp), hszs, hG]
    show splitScanBlocks (g ++ e2) rest (sz1 - 1) 0 [] ([], []) = _
    rw [scanBlocks_within g e2 rest (sz1 - 1) 0 [] ([], []) hgle,
      List.nil_append,
      scanBlocks_main rest e2 (sz1 - 1) 0 g ([], []) hpw2 he2gt
        (fun e he' => by
          have h1 : (e.1 : ℤ) < (n : ℤ) := by
            exact_mod_cast hrow e (List.mem_append_right g he')
          omega)
        (fun g' hg' => by
          apply hne g'
          rw [declaredFrom]
          apply List.mem_cons_of_mem
          rw [hm1, hdrop]
          exact hg')
        (fun s hs => hszpos s (List.mem_cons_of_mem sz1 hs)) hgne,
      (flushAll_parity (g :: declaredFrom e2 rest (sz1 - 1)) [] []).1,
      List.nil_append, List.nil_append]

/-- C7 witness: three size-1 blocks, each with one diagonal entry. -/
theorem C7_alternation_witness :
    (upperTriangular [(0, 0, 1), (1, 1, 2), (2, 2, 3)] ∧
      rowsSorted [(0, 0, 1), (1, 1, 2), (2, 2, 3)] ∧
      (∀ s ∈ ([1, 1, 1] : List ℤ), 0 ≤ s) ∧
      ([1, 1, 1] : List ℤ).sum = ((3 : ℕ) : ℤ) ∧ 1 ≤ 3 ∧
      (∀ e ∈ ([(0, 0, 1), (1, 1, 2), (2, 2, 3)] : List Entry), e.1 < 3) ∧
      (∀ g ∈ declaredFrom [(0, 0, 1), (1, 1, 2), (2, 2, 3)]
          (([1, 1, 1] : List ℤ).filter (fun s => s != 0)) (-1), g ≠ [])) ∧
    split_AB_blocks [(0, 0, 1), (1, 1, 2), (2, 2, 3)]
        ⟨[1, 1, 1], NpDtype.int32⟩ 3 = some
      ((parityTake (declaredFrom [(0, 0, 1), (1, 1, 2), (2, 2, 3)]
          (([1, 1, 1] : List ℤ).filter (fun s => s != 0)) (-1))).2,
        (parityTake (declaredFrom [(0, 0, 1), (1, 1, 2), (2, 2, 3)]
          (([1, 1, 1] : List ℤ).filter (fun s => s != 0)) (-1))).1) :=
  ⟨⟨by decide, by decide, by decide, by decide, by decide, by decide,
      by decide⟩,
    C7_alternation [(0, 0, 1), (1, 1, 2), (2, 2, 3)]
      ⟨[1, 1, 1], NpDtype.int32⟩ 3 (by decide) (by decide) (by decide)
      (by decide) (by decide) (by decide) (by decide) (by decide)⟩
